import Mathlib

/-!
Verification development for the repository's core pipeline:
file-ingestion queue (step1), syntax extraction (step3), graph builders
(step4) and the analysis orchestrator (step5).  Python string and list
operations are modelled over `List Char` / `List String`; Python `int` is
modelled as `Int`; operations that can raise a Python exception return
`Option`/`Except`, with `none` (resp. an error value) standing for the
raised exception.
-/

set_option maxHeartbeats 1000000

namespace CodeIQ

/-! ### Char-level primitives modelling Python string operations -/

/-- Whitespace characters removed by Python `str.strip` (the common ones). -/
def isPySpace (c : Char) : Bool :=
  c == ' ' || c == '\t' || c == '\n' || c == '\r' || c == '\x0b' || c == '\x0c'

/-- Python `str.strip` on a character list. -/
def trimChars (l : List Char) : List Char :=
  ((l.dropWhile isPySpace).reverse.dropWhile isPySpace).reverse

/-- Does `l` begin with the pattern `pat`?  (Python `str.startswith`.) -/
def listStartsWith : List Char → List Char → Bool
  | [], _ => true
  | _ :: _, [] => false
  | a :: pat, b :: l => a == b && listStartsWith pat l

/-- Does `l` end with the pattern `pat`?  (Python `str.endswith`.) -/
def listEndsWith (pat l : List Char) : Bool :=
  listStartsWith pat.reverse l.reverse

/-- Python `str.splitlines` (restricted to the newline and carriage-return
separators, which are the only ones relevant to source text). -/
def splitlinesAux : List Char → List Char → List String
  | [], [] => []
  | [], acc => [String.mk acc.reverse]
  | '\r' :: '\n' :: rest, acc => String.mk acc.reverse :: splitlinesAux rest []
  | '\n' :: rest, acc => String.mk acc.reverse :: splitlinesAux rest []
  | '\r' :: rest, acc => String.mk acc.reverse :: splitlinesAux rest []
  | c :: rest, acc => splitlinesAux rest (c :: acc)

/-- Python `content.splitlines()`. -/
def splitlines (s : String) : List String :=
  splitlinesAux s.data []

/-- Python slice `s[a:b]` with nonnegative bounds (empty when `b ≤ a`,
clamped to the length; byte offsets are modelled as character offsets,
which agrees with Python for ASCII source text). -/
def pySlice (s : String) (a b : Nat) : String :=
  String.mk ((s.data.drop a).take (b - a))

/-- Python single-character `str.replace` (here only `'/'` → `'_'` is used). -/
def replaceChar (c d : Char) (s : String) : String :=
  String.mk (s.data.map (fun x => if x == c then d else x))

/-- `os.path.basename`: the part of the path after the last `'/'`. -/
def pyBasename (p : String) : String :=
  String.mk ((p.data.reverse.takeWhile (fun c => c ≠ '/')).reverse)

/-- The extension part of `os.path.splitext`: the suffix of the basename
starting at its last dot, where dots leading the basename do not count. -/
def fileExtension (p : String) : String :=
  let b := (pyBasename p).data
  let lead := b.takeWhile (fun c => c = '.')
  let rest := b.drop lead.length
  if rest.contains '.' then
    String.mk ('.' :: (rest.reverse.takeWhile (fun c => c ≠ '.')).reverse)
  else String.mk []

/-- Python list indexing `l[i]` for `int` indexes: nonnegative indexes from
the front, negative indexes from the back, `none` models `IndexError`. -/
def pyGet (l : List String) (i : Int) : Option String :=
  if 0 ≤ i ∧ i < (l.length : Int) then some (l.getD i.toNat "")
  else if -(l.length : Int) ≤ i ∧ i < 0 then
    some (l.getD ((l.length : Int) + i).toNat "")
  else none

/-- Python `range(a, b)` over `int`. -/
def intRange (a b : Int) : List Int :=
  (List.range (b - a).toNat).map (fun k => a + Int.ofNat k)

/-! ### Data model (models.py) -/

/-- `NodeType` enum from models.py.  Note there is no `File` member: the
parser uses the `class` kind as its file container. -/
inductive NodeType where
  | function
  | class_
  | method
  | variable
  | import_
  | call
deriving DecidableEq

/-- The string `.value` of a `NodeType` member. -/
def NodeType.value : NodeType → String
  | .function => "function"
  | .class_ => "class"
  | .method => "method"
  | .variable => "variable"
  | .import_ => "import"
  | .call => "call"

/-- `ASTNode` from models.py (the `attributes` dict is never read or
written anywhere in the code and is omitted). -/
inductive ASTNode where
  | mk (id : String) (type : NodeType) (name : String) (file_path : String)
       (line_start line_end : Int) (children : List ASTNode)

def ASTNode.id : ASTNode → String
  | .mk i _ _ _ _ _ _ => i

def ASTNode.type : ASTNode → NodeType
  | .mk _ t _ _ _ _ _ => t

def ASTNode.name : ASTNode → String
  | .mk _ _ n _ _ _ _ => n

def ASTNode.file_path : ASTNode → String
  | .mk _ _ _ f _ _ _ => f

def ASTNode.line_start : ASTNode → Int
  | .mk _ _ _ _ s _ _ => s

def ASTNode.line_end : ASTNode → Int
  | .mk _ _ _ _ _ e _ => e

def ASTNode.children : ASTNode → List ASTNode
  | .mk _ _ _ _ _ _ c => c

/-- `ControlFlowNode` from models.py (also the attribute record stored on
CFG graph nodes via `**node.dict()`). -/
structure ControlFlowNode where
  id : String
  type : String
  ast_node_id : String
  line_number : Int
  code_snippet : String
deriving DecidableEq, Inhabited

/-- `ProgramDependencyNode` from models.py (attribute record of PDG nodes);
the source field `variable` is a Lean keyword, rendered here as `variable_`. -/
structure ProgramDependencyNode where
  id : String
  variable_ : String
  line_number : Int
  scope : String
deriving DecidableEq, Inhabited

/-- The node attributes the HPG builder stores on each graph node. -/
structure HPGAttrs where
  type : String
  name : String
  file_path : String
  line_start : Int
  line_end : Int
deriving DecidableEq, Inhabited

/-! ### networkx.DiGraph, shallowly -/

/-- A `networkx.DiGraph` whose nodes carry attribute records of type `α`:
the node list is keyed by node id (insertion order preserved, ids unique),
edges are `(source, target, type-attribute)` triples keyed by the pair
`(source, target)`. -/
structure DiGraph (α : Type) where
  nodes : List (String × α)
  edges : List (String × String × String)
deriving DecidableEq

def DiGraph.empty {α : Type} : DiGraph α := ⟨[], []⟩

def nodeIds {α : Type} (g : DiGraph α) : List String :=
  g.nodes.map Prod.fst

/-- `networkx.DiGraph.add_node` with a full attribute record: inserting an
existing id overwrites its attributes in place, a new id is appended. -/
def addNode {α : Type} (g : DiGraph α) (id : String) (a : α) : DiGraph α :=
  if (nodeIds g).contains id then
    { g with nodes := g.nodes.map (fun p => if p.1 == id then (id, a) else p) }
  else
    { g with nodes := g.nodes ++ [(id, a)] }

/-- Auto-insertion of a missing edge endpoint (with a default attribute
record), as `networkx.DiGraph.add_edge` does; the builders in this code
always add both endpoints before any edge, so this is the identity in
every reachable call. -/
def ensureNode {α : Type} [Inhabited α] (g : DiGraph α) (u : String) :
    DiGraph α :=
  if (nodeIds g).contains u then g
  else { g with nodes := g.nodes ++ [(u, default)] }

/-- `networkx.DiGraph.add_edge`: missing endpoints are auto-added, and
re-adding an existing `(source, target)` pair overwrites the edge's type
attribute. -/
def addEdge {α : Type} [Inhabited α] (g : DiGraph α) (u v ty : String) :
    DiGraph α :=
  let g2 := ensureNode (ensureNode g u) v
  if g2.edges.any (fun e => e.1 == u && e.2.1 == v) then
    { g2 with edges := g2.edges.map (fun e => if e.1 == u && e.2.1 == v then (u, v, ty) else e) }
  else
    { g2 with edges := g2.edges ++ [(u, v, ty)] }

/-- Attribute lookup for a node id (`graph.nodes[id]`). -/
def nodeLookup {α : Type} (g : DiGraph α) (id : String) : Option α :=
  (g.nodes.find? (fun p => p.1 == id)).map Prod.snd

/-! ### step1_file_queue.py -/

/-- `FileTask` dataclass (the `ast` field is never used and is omitted). -/
structure FileTask where
  file_path : String
  content : String
deriving DecidableEq

/-- `FileQueue`: an `asyncio.Queue` (FIFO list plus the unfinished-task
counter that drives `join`) together with the `processed_files` seen-set. -/
structure FileQueue where
  max_workers : Nat
  queue : List FileTask
  processed_files : List String
  unfinished : Nat
deriving DecidableEq

/-- A freshly constructed `FileQueue(max_workers)`. -/
def FileQueue.new (w : Nat) : FileQueue :=
  ⟨w, [], [], 0⟩

/-- `FileQueue.add_file`: enqueue a `FileTask` unless the path was already
seen; a successful put increments the unfinished-task counter. -/
def FileQueue.add_file (q : FileQueue) (p : String) : FileQueue :=
  if p ∈ q.processed_files then q
  else { q with queue := q.queue ++ [⟨p, ""⟩],
                processed_files := p :: q.processed_files,
                unfinished := q.unfinished + 1 }

/-- `FileQueue.get_file`: pop the oldest task; `none` models the consumer
suspending on an empty queue. -/
def FileQueue.get_file (q : FileQueue) : Option (FileTask × FileQueue) :=
  match q.queue with
  | [] => none
  | t :: rest => some (t, { q with queue := rest })

/-- `FileQueue.task_done`: decrement the unfinished-task counter; `none`
models the `ValueError` asyncio raises when no task is outstanding. -/
def FileQueue.task_done (q : FileQueue) : Option FileQueue :=
  match q.unfinished with
  | 0 => none
  | n + 1 => some { q with unfinished := n }

/-- `FileQueue.wait_completion` (`queue.join`) returns exactly when no
enqueued task is still unfinished. -/
def FileQueue.drained (q : FileQueue) : Prop :=
  q.unfinished = 0

/-- One client operation on the queue, for reasoning about traces. -/
inductive QueueOp where
  | add (p : String)
  | get
  | done_
deriving DecidableEq

/-- Run a trace of queue operations; `none` when an operation raises or a
`get` would block forever. -/
def runOps : FileQueue → List QueueOp → Option FileQueue
  | q, [] => some q
  | q, .add p :: rest => runOps (q.add_file p) rest
  | q, .get :: rest =>
    match q.get_file with
    | none => none
    | some (_, q') => runOps q' rest
  | q, .done_ :: rest =>
    match q.task_done with
    | none => none
    | some q' => runOps q' rest

/-- The number of enqueue attempts along a trace that actually enqueue a
task (i.e. are not dropped by the seen-set dedup). -/
def succEnq : FileQueue → List QueueOp → Nat
  | _, [] => 0
  | q, .add p :: rest =>
    (if p ∈ q.processed_files then 0 else 1) + succEnq (q.add_file p) rest
  | q, .get :: rest =>
    match q.get_file with
    | none => 0
    | some (_, q') => succEnq q' rest
  | q, .done_ :: rest =>
    match q.task_done with
    | none => 0
    | some q' => succEnq q' rest

/-- Is an operation a done-marking? -/
def isDoneOp : QueueOp → Bool
  | .done_ => true
  | _ => false

/-- The number of done-markings in a trace. -/
def doneCount (ops : List QueueOp) : Nat :=
  (ops.filter isDoneOp).length

/-- How many tasks with the given path sit in the queue. -/
def countTasks (q : FileQueue) (p : String) : Nat :=
  (q.queue.filter (fun t => t.file_path == p)).length

/-! ### step3_ast_parser.py -/

/-- A concrete-syntax-tree node as delivered by the external tree-sitter
parser: the fields the extractor reads (`type`, `start_point[0]`,
`start_byte`, `end_point[0]`, `end_byte`, `children`). -/
inductive TSNode where
  | mk (type : String) (startRow startByte endRow endByte : Nat)
       (children : List TSNode)

def TSNode.type : TSNode → String
  | .mk t _ _ _ _ _ => t

def TSNode.startRow : TSNode → Nat
  | .mk _ r _ _ _ _ => r

def TSNode.startByte : TSNode → Nat
  | .mk _ _ b _ _ _ => b

def TSNode.endRow : TSNode → Nat
  | .mk _ _ _ r _ _ => r

def TSNode.endByte : TSNode → Nat
  | .mk _ _ _ _ b _ => b

def TSNode.children : TSNode → List TSNode
  | .mk _ _ _ _ _ c => c

/-- The first `identifier` child of a CST node, as a source slice
(`content[child.start_byte:child.end_byte]`). -/
def firstIdentifier (n : TSNode) (content : String) : Option String :=
  (n.children.find? (fun c => c.type == "identifier")).map
    (fun c => pySlice content c.startByte c.endByte)

mutual

/-- `ASTParser._extract_python_entities`, with the mutation of
`parent.children` made explicit: the returned list is exactly the sequence
of `ASTNode`s the walk of `node` appends to the *current* parent.  Note the
final unconditional recursion of the source runs for every node type, so a
class body is walked twice: once attaching methods to the class node and
once (through the trailing recursion into the class's `block` child)
attaching them to the outer parent again. -/
def extract_python_entities : TSNode → String → String → List ASTNode
  | node@(TSNode.mk ty sr _ er _ cs), content, file_path =>
    if ty = "function_definition" then
      match firstIdentifier node content with
      | some nm =>
        if nm ≠ "" then
          ASTNode.mk ("func_" ++ replaceChar '/' '_' file_path ++ "_" ++ nm)
            .function nm file_path ((sr : Int) + 1) ((er : Int) + 1) []
            :: extractEntitiesList cs content file_path
        else extractEntitiesList cs content file_path
      | none => extractEntitiesList cs content file_path
    else if ty = "class_definition" then
      match firstIdentifier node content with
      | some nm =>
        if nm ≠ "" then
          ASTNode.mk ("class_" ++ replaceChar '/' '_' file_path ++ "_" ++ nm)
            .class_ nm file_path ((sr : Int) + 1) ((er : Int) + 1)
            (extractBlockChildren cs content file_path)
            :: extractEntitiesList cs content file_path
        else extractEntitiesList cs content file_path
      | none => extractEntitiesList cs content file_path
    else extractEntitiesList cs content file_path

/-- The trailing `for child in node.children: _extract_python_entities(...)`
loop, appending to one fixed parent. -/
def extractEntitiesList : List TSNode → String → String → List ASTNode
  | [], _, _ => []
  | c :: cs, content, file_path =>
    extract_python_entities c content file_path ++
      extractEntitiesList cs content file_path

/-- The class-body walk: for each `block` child of a class definition, walk
the block's children with the class node as parent. -/
def extractBlockChildren : List TSNode → String → String → List ASTNode
  | [], _, _ => []
  | TSNode.mk ty _ _ _ _ kids :: cs, content, file_path =>
    (if ty = "block" then extractEntitiesList kids content file_path
     else []) ++ extractBlockChildren cs content file_path

end

/-- `ASTParser._parse_python_file` (the tree-sitter path): the external
parse is supplied as the total function `tsParse`. -/
def parse_python_file (tsParse : String → TSNode) (content file_path : String) :
    ASTNode :=
  ASTNode.mk ("file_" ++ replaceChar '/' '_' file_path) .class_
    (pyBasename file_path) file_path 1 ((splitlines content).length : Int)
    (extract_python_entities (tsParse content) content file_path)

/-- One matched line of `ASTParser._simple_parse_file`'s pattern scan. -/
def simpleLineNode (file_path : String) (lineCount : Nat) (i : Nat)
    (raw : String) : Option ASTNode :=
  let line := String.mk (trimChars raw.data)
  if listStartsWith ("def ").data line.data ∧ listEndsWith (":").data line.data then
    let fn := String.mk ((pySlice line 4 (line.length - 1)).data.takeWhile (fun c => c ≠ '('))
    some (ASTNode.mk
      ("func_" ++ replaceChar '/' '_' file_path ++ "_" ++ fn ++ "_" ++ Nat.repr i)
      .function fn file_path ((i : Int) + 1)
      (min ((i : Int) + 10) (lineCount : Int)) [])
  else if listStartsWith ("class ").data line.data ∧ listEndsWith (":").data line.data then
    let cn := String.mk
      (((pySlice line 6 (line.length - 1)).data.takeWhile (fun c => c ≠ '(')).takeWhile
        (fun c => c ≠ ':'))
    some (ASTNode.mk
      ("class_" ++ replaceChar '/' '_' file_path ++ "_" ++ cn ++ "_" ++ Nat.repr i)
      .class_ cn file_path ((i : Int) + 1)
      (min ((i : Int) + 20) (lineCount : Int)) [])
  else none

/-- The children produced by the line-heuristic scan of
`ASTParser._simple_parse_file`. -/
def simpleChildren (lines : List String) (file_path : String) : List ASTNode :=
  lines.enum.filterMap (fun p => simpleLineNode file_path lines.length p.1 p.2)

/-- `ASTParser._simple_parse_file` (the fallback line-based parser). -/
def simple_parse_file (content file_path : String) : ASTNode :=
  let lines := splitlines content
  ASTNode.mk ("file_" ++ replaceChar '/' '_' file_path) .class_
    (pyBasename file_path) file_path 1 (lines.length : Int)
    (simpleChildren lines file_path)

/-- Is the tree-sitter path taken for this file?  (`file_extension == '.py'
and 'python' in self.languages`, where `hasPython` says whether the
tree-sitter setup succeeded.) -/
def pythonPath (hasPython : Bool) (file_path : String) : Bool :=
  (fileExtension file_path == ".py") && hasPython

/-- `ASTParser.parse_file`: `none` for empty content, else the exact
tree-sitter walk for Python files (when a grammar is available) and the
line-heuristic fallback otherwise. -/
def parse_file (hasPython : Bool) (tsParse : String → TSNode)
    (file_path content : String) : Option ASTNode :=
  if content = "" then none
  else if pythonPath hasPython file_path then
    some (parse_python_file tsParse content file_path)
  else some (simple_parse_file content file_path)

/-! ### step4_graph_builder.py -/

/-- The attribute record `HPGBuilder._add_ast_node_to_graph` stores for an
`ASTNode`. -/
def hpgAttrsOf (n : ASTNode) : HPGAttrs :=
  ⟨n.type.value, n.name, n.file_path, n.line_start, n.line_end⟩

mutual

/-- `HPGBuilder._add_ast_node_to_graph`: insert the node (attributes copied
verbatim), add a "contains" edge from the parent when the parent id is
truthy (`if parent_id:` — `None` and the empty string are both falsy), then
recurse into the children with this node as parent. -/
def add_ast_node_to_graph : ASTNode → DiGraph HPGAttrs → Option String →
    DiGraph HPGAttrs
  | node@(ASTNode.mk nid _ _ _ _ _ cs), g, parent_id =>
    let g1 := addNode g nid (hpgAttrsOf node)
    let g2 := match parent_id with
              | some p => if p ≠ "" then addEdge g1 p nid ("contains") else g1
              | none => g1
    addChildrenToGraph cs g2 nid

/-- The `for child in ast_node.children` loop of the HPG walk. -/
def addChildrenToGraph : List ASTNode → DiGraph HPGAttrs → String →
    DiGraph HPGAttrs
  | [], g, _ => g
  | c :: cs, g, pid =>
    addChildrenToGraph cs (add_ast_node_to_graph c g (some pid)) pid

end

/-- `HPGBuilder.build`: fold every root of the forest into one graph. -/
def HPGBuilder.build (ast_nodes : List ASTNode) : DiGraph HPGAttrs :=
  ast_nodes.foldl (fun g n => add_ast_node_to_graph n g none) DiGraph.empty

/-- `CFGBuilder.build`: two nodes (entry, exit) and one "normal" edge; the
snippet guard `lines[line-1] if line <= len(lines) else ""` uses Python
indexing, so `none` models the `IndexError` it can raise for non-positive
line numbers. -/
def CFGBuilder.build (u : ASTNode) (content : String) :
    Option (DiGraph ControlFlowNode) :=
  match (if u.line_start ≤ ((splitlines content).length : Int)
         then pyGet (splitlines content) (u.line_start - 1) else some ""),
        (if u.line_end ≤ ((splitlines content).length : Int)
         then pyGet (splitlines content) (u.line_end - 1) else some "") with
  | some snipEntry, some snipExit =>
    let entry : ControlFlowNode :=
      ⟨"entry_" ++ u.id, "entry", u.id, u.line_start, snipEntry⟩
    let exit_ : ControlFlowNode :=
      ⟨"exit_" ++ u.id, "exit", u.id, u.line_end, snipExit⟩
    let g := addNode (DiGraph.empty) entry.id entry
    let g := addNode g exit_.id exit_
    some (addEdge g entry.id exit_.id ("normal"))
  | _, _ => none

/-- The per-line condition and left-hand side of
`PDGBuilder._extract_variables`: the stripped line must contain `'='` and
not start with `'#'`; the variable is `line.split('=')[0].strip()`. -/
def lhsOf (t : List Char) : List Char :=
  trimChars (t.takeWhile (fun c => c ≠ '='))

/-- One iteration of the `PDGBuilder._extract_variables` loop on a fetched
line: strip it, require `'=' in line and not line.startswith('#')`, take
`line.split('=')[0].strip()` as the variable and require it non-empty and
not starting with a space; `tail` is the result of the remaining
iterations. -/
def varLineStep (raw : String) (i : Int) (tail : List (String × Int)) :
    List (String × Int) :=
  let t := trimChars raw.data
  if t.contains '=' ∧ ¬ listStartsWith ("#").data t then
    let v := String.mk (lhsOf t)
    if v ≠ "" ∧ ¬ listStartsWith (" ").data v.data then (v, i + 1) :: tail
    else tail
  else tail

/-- The loop of `PDGBuilder._extract_variables` over the Python index
range; `none` models an `IndexError` from `lines[i]`. -/
def extractVarsAux (lines : List String) : List Int →
    Option (List (String × Int))
  | [] => some []
  | i :: rest =>
    match pyGet lines i with
    | none => none
    | some raw =>
      match extractVarsAux lines rest with
      | none => none
      | some tail => some (varLineStep raw i tail)

/-- `PDGBuilder._extract_variables`: scan
`range(start_line - 1, min(end_line, len(lines)))`. -/
def extract_variables (content : String) (start_line end_line : Int) :
    Option (List (String × Int)) :=
  let lines := splitlines content
  extractVarsAux lines (intRange (start_line - 1) (min end_line (lines.length : Int)))

/-- The id `f"var_{ast_node.id}_{i}"` of the i-th PDG node of a unit. -/
def pdgNodeId (uid : String) (i : Nat) : String :=
  "var_" ++ uid ++ "_" ++ Nat.repr i

/-- `PDGBuilder.build`: one node per extracted assignment, then a
"data_flow" edge from each node to the next. -/
def PDGBuilder.build (u : ASTNode) (content : String) :
    Option (DiGraph ProgramDependencyNode) :=
  match extract_variables content u.line_start u.line_end with
  | none => none
  | some vars =>
    let g1 := vars.enum.foldl
      (fun g p => addNode g (pdgNodeId u.id p.1)
        ⟨pdgNodeId u.id p.1, p.2.1, p.2.2, u.name⟩)
      (DiGraph.empty)
    some ((List.range (vars.length - 1)).foldl
      (fun g i => addEdge g (pdgNodeId u.id i) (pdgNodeId u.id (i + 1)) ("data_flow"))
      g1)

/-! ### step5_navigator.py -/

mutual

/-- All nodes of a tree in the preorder the navigator's recursive walks
visit them. -/
def ASTNode.allNodes : ASTNode → List ASTNode
  | node@(ASTNode.mk _ _ _ _ _ _ cs) => node :: allNodesList cs

def allNodesList : List ASTNode → List ASTNode
  | [] => []
  | c :: cs => c.allNodes ++ allNodesList cs

end

mutual

/-- The parent→child id pairs of a tree (one per tree edge). -/
def ASTNode.treeEdges : ASTNode → List (String × String)
  | ASTNode.mk nid _ _ _ _ _ cs =>
    cs.map (fun c => (nid, c.id)) ++ treeEdgesList cs

def treeEdgesList : List ASTNode → List (String × String)
  | [] => []
  | c :: cs => c.treeEdges ++ treeEdgesList cs

end

mutual

/-- The Function/Method nodes of a tree, in the order
`NavigatorModule._build_cfgs_for_node` (and `_build_pdgs_for_node`) visits
them: check the node itself, then recurse into the children. -/
def collectUnits : ASTNode → List ASTNode
  | node@(ASTNode.mk _ t _ _ _ _ cs) =>
    (if t.value = "function" ∨ t.value = "method" then [node] else []) ++
      collectUnitsList cs

def collectUnitsList : List ASTNode → List ASTNode
  | [] => []
  | c :: cs => collectUnits c ++ collectUnitsList cs

end

/-- Python dict insertion (`d[k] = v`): overwrite an existing key in place,
else append. -/
def dictInsert {α : Type} (m : List (String × α)) (k : String) (v : α) :
    List (String × α) :=
  if (m.map Prod.fst).contains k then
    m.map (fun p => if p.1 == k then (k, v) else p)
  else m ++ [(k, v)]

/-- Python dict lookup with default (`d.get(k, dflt)`). -/
def dictGetD {α : Type} (m : List (String × α)) (k : String) (dflt : α) : α :=
  match m.find? (fun p => p.1 == k) with
  | some p => p.2
  | none => dflt

/-- Build a per-unit graph cache over a list of units (each paired with its
file content); `none` propagates a builder's `IndexError`. -/
def buildAll {α : Type} (bld : ASTNode → String → Option (DiGraph α)) :
    List (ASTNode × String) → List (String × DiGraph α) →
    Option (List (String × DiGraph α))
  | [], acc => some acc
  | (u, c) :: rest, acc =>
    match bld u c with
    | none => none
    | some g => buildAll bld rest (dictInsert acc u.id g)

/-- The errors `NavigatorModule.analyze_repository` can surface: the two
HTTP 400 aborts (no files; no parseable content) and a propagated Python
`IndexError` from a graph builder. -/
inductive AnalyzeError where
  | emptyInput
  | noParseableContent
  | indexError
deriving DecidableEq

/-- `AnalysisReport` as produced by `_generate_analysis_report` (the wall
clock `analysis_timestamp` is omitted). -/
structure AnalysisReport where
  total_files : Nat
  total_functions : Nat
  total_classes : Nat
  hpg_nodes : Nat
  hpg_edges : Nat
  cfgs_built : Nat
  pdgs_built : Nat
  file_breakdown : List (String × List String × List String)

/-- The `ast_cache` built in step 2 of `analyze_repository`: one tree per
loaded file whose extraction returned a tree. -/
def extractedPairs (hasPython : Bool) (tsParse : String → TSNode)
    (fileContents : List (String × String)) : List (String × ASTNode) :=
  fileContents.filterMap
    (fun pc => (parse_file hasPython tsParse pc.1 pc.2).map (fun t => (pc.1, t)))

/-- The (unit, content) pairs the CFG/PDG stages iterate over. -/
def unitJobs (fileContents : List (String × String))
    (astNodes : List ASTNode) : List (ASTNode × String) :=
  astNodes.flatMap
    (fun t => (collectUnits t).map (fun u => (u, dictGetD fileContents t.file_path "")))

/-- `NavigatorModule._generate_analysis_report` (counts and the per-file
name breakdown; the timestamp is omitted). -/
def generate_analysis_report (astCache : List (String × ASTNode))
    (hpg : DiGraph HPGAttrs) (cfgs pdgs : Nat) : AnalysisReport :=
  { total_files := astCache.length
    total_functions :=
      (astCache.flatMap
        (fun p => p.2.children.filter (fun c => c.type.value == "function"))).length
    total_classes :=
      (astCache.flatMap
        (fun p => p.2.children.filter (fun c => c.type.value == "class"))).length
    hpg_nodes := hpg.nodes.length
    hpg_edges := hpg.edges.length
    cfgs_built := cfgs
    pdgs_built := pdgs
    file_breakdown := astCache.map (fun p =>
      (p.1,
       (p.2.children.filter (fun c => c.type.value == "function")).map ASTNode.name,
       (p.2.children.filter (fun c => c.type.value == "class")).map ASTNode.name)) }

/-- `NavigatorModule.analyze_repository`, with ingestion abstracted to the
file-content map it produces: abort with 400 when the map is empty, abort
with 400 when no file yields a tree, else build the HPG, all CFGs and all
PDGs and return the report. -/
def analyze_repository (hasPython : Bool) (tsParse : String → TSNode)
    (fileContents : List (String × String)) :
    Except AnalyzeError AnalysisReport :=
  if fileContents.isEmpty then .error .emptyInput
  else if (extractedPairs hasPython tsParse fileContents).isEmpty then
    .error .noParseableContent
  else
    match buildAll CFGBuilder.build
      (unitJobs fileContents
        ((extractedPairs hasPython tsParse fileContents).map Prod.snd)) [] with
    | none => .error .indexError
    | some cfgs =>
      match buildAll PDGBuilder.build
        (unitJobs fileContents
          ((extractedPairs hasPython tsParse fileContents).map Prod.snd)) [] with
      | none => .error .indexError
      | some pdgs =>
        .ok (generate_analysis_report
          (extractedPairs hasPython tsParse fileContents)
          (HPGBuilder.build
            ((extractedPairs hasPython tsParse fileContents).map Prod.snd))
          cfgs.length pdgs.length)

/-! ### Spec-side notions used to state the claims -/

/-- The spec's "that source line when the line number is within the
source's line count, and the empty string otherwise" (line numbers are
1-based). -/
def lineAt (lines : List String) (n : Int) : String :=
  if 1 ≤ n ∧ n ≤ (lines.length : Int) then lines.getD (n - 1).toNat "" else ""

/-- The dependency-node list in the words of the (amended) PDG claim: the
lines numbered in `[ls, le]`, in scan order, whose stripped text contains
an assignment operator, does not start with the comment marker, and has
non-empty stripped text left of the operator; the value is that left part
paired with the 1-based line number. -/
def pdgCandidatesAux : List String → Int → Int → Int → List (String × Int)
  | [], _, _, _ => []
  | raw :: rest, n, ls, le =>
    let tail := pdgCandidatesAux rest (n + 1) ls le
    let t := trimChars raw.data
    if ls ≤ n ∧ n ≤ le ∧ (t.contains '=' ∧ ¬ listStartsWith ("#").data t) ∧
        lhsOf t ≠ [] then
      (String.mk (lhsOf t), n) :: tail
    else tail

/-- See `pdgCandidatesAux`; the scan starts at line number 1. -/
def pdgCandidates (lines : List String) (ls le : Int) : List (String × Int) :=
  pdgCandidatesAux lines 1 ls le

/-- Proof-side normal form of the `_extract_variables` scan: process the
suffix of the line list from line number `n` on, stopping past `le`. -/
def tailScan : List String → Int → Int → List (String × Int)
  | [], _, _ => []
  | raw :: rest, n, le =>
    if le < n then []
    else
      let tail := tailScan rest (n + 1) le
      let t := trimChars raw.data
      if (t.contains '=' ∧ ¬ listStartsWith ("#").data t) ∧ lhsOf t ≠ [] then
        (String.mk (lhsOf t), n) :: tail
      else tail

/-- The number of incoming "contains" edges of a node id. -/
def incomingContains {α : Type} (g : DiGraph α) (v : String) : Nat :=
  (g.edges.filter (fun e => e.2.1 == v && e.2.2 == "contains")).length

/-! ### Concrete inputs used by counterexamples and witnesses -/

/-- A trivial external parse result (for inputs that never take the
tree-sitter path). -/
def tsEmpty : String → TSNode :=
  fun _ => TSNode.mk ("module") 0 0 0 0 []

/-- The sample Python file whose class body contains one method. -/
def sampleClassSource : String :=
  "class C:\n    def m(self):\n        pass\n"

/-- The tree-sitter concrete syntax tree of `sampleClassSource` (external
parser output, written out explicitly: a module holding a class_definition
whose block holds one function_definition named `m`). -/
def sampleClassCST : TSNode :=
  TSNode.mk ("module") 0 0 3 39
    [TSNode.mk ("class_definition") 0 0 2 38
      [TSNode.mk ("class") 0 0 0 5 [],
       TSNode.mk ("identifier") 0 6 0 7 [],
       TSNode.mk (":") 0 7 0 8 [],
       TSNode.mk ("block") 1 13 2 38
         [TSNode.mk ("function_definition") 1 13 2 38
           [TSNode.mk ("def") 1 13 1 16 [],
            TSNode.mk ("identifier") 1 17 1 18 [],
            TSNode.mk ("parameters") 1 18 1 24
              [TSNode.mk ("(") 1 18 1 19 [],
               TSNode.mk ("identifier") 1 19 1 23 [],
               TSNode.mk (")") 1 23 1 24 []],
            TSNode.mk (":") 1 24 1 25 [],
            TSNode.mk ("block") 2 34 2 38
              [TSNode.mk ("pass_statement") 2 34 2 38
                [TSNode.mk ("pass") 2 34 2 38 []]]]]]]

/-- An external parser that yields `sampleClassCST` (only ever applied to
`sampleClassSource`). -/
def tsSampleClass : String → TSNode :=
  fun _ => sampleClassCST

/-- A unit whose line numbers violate the 1-based data-model invariant
(`line_start = line_end = 0`), as allowed by the literal "any
line_start/line_end" of the CFG claim. -/
def zeroLineUnit : ASTNode :=
  ASTNode.mk ("u0") .function ("f") ("a.py") 0 0 []

/-- A one-line unit used by the PDG counterexample. -/
def oneLineUnit : ASTNode :=
  ASTNode.mk ("u3") .function ("f") ("a.py") 1 1 []

/-- A unit whose whole line range lies past the end of the source. -/
def pastEndUnit : ASTNode :=
  ASTNode.mk ("u10") .function ("f") ("a.py") 5 9 []

/-- A two-line unit used by witnesses. -/
def twoLineUnit : ASTNode :=
  ASTNode.mk ("u2") .function ("f") ("a.py") 1 2 []

/-- A tiny forest used by the HPG witness. -/
def sampleForest : List ASTNode :=
  [ASTNode.mk ("r") .class_ ("R") ("a.py") 1 3
    [ASTNode.mk ("k") .function ("k") ("a.py") 2 3 []]]

/-- The queue trace used by the drainage witness: a deduplicated re-add, a
dequeue and one done-marking. -/
def sampleOps : List QueueOp :=
  [QueueOp.add ("a"), QueueOp.add ("a"), QueueOp.get, QueueOp.done_]

/-- The queue state `sampleOps` ends in. -/
def sampleOpsEnd : FileQueue :=
  ⟨4, [], ["a"], 0⟩

/-! ### Proof-side auxiliary definitions -/

/-- Value of a decimal digit character. -/
def decDigitVal (c : Char) : Nat := c.toNat - 48

/-- Value of a decimal digit string (used to invert `Nat.repr`). -/
def decVal (l : List Char) : Nat :=
  l.foldl (fun a c => a * 10 + decDigitVal c) 0

/-! ## Theorems -/

/-! ### Decimal representations are injective -/

theorem toDigitsCore_append (n : Nat) : ∀ (fuel : Nat) (ds : List Char),
    n < fuel →
    Nat.toDigitsCore 10 fuel n ds = Nat.toDigitsCore 10 (n + 1) n [] ++ ds := by
  induction n using Nat.strong_induction_on with
  | _ n ih =>
    intro fuel ds hf
    match fuel, hf with
    | f + 1, hf2 =>
      by_cases h0 : n / 10 = 0
      · simp [Nat.toDigitsCore, h0]
      · have h10 : 10 ≤ n := by
          rcases Nat.lt_or_ge n 10 with h | h
          · exact absurd (Nat.div_eq_of_lt h) h0
          · exact h
        have hq : n / 10 < n := Nat.div_lt_self (by omega) (by omega)
        have hqf : n / 10 < f := lt_of_lt_of_le hq (Nat.lt_succ_iff.mp hf2)
        rw [show Nat.toDigitsCore 10 (f + 1) n ds
              = Nat.toDigitsCore 10 f (n / 10) (Nat.digitChar (n % 10) :: ds) by
            simp [Nat.toDigitsCore, h0]]
        rw [ih (n / 10) hq f _ hqf]
        rw [show Nat.toDigitsCore 10 (n + 1) n []
              = Nat.toDigitsCore 10 n (n / 10) [Nat.digitChar (n % 10)] by
            simp [Nat.toDigitsCore, h0]]
        rw [ih (n / 10) hq n _ hq]
        simp

theorem toDigits_rec (n : Nat) :
    Nat.toDigits 10 n =
      if n < 10 then [Nat.digitChar n]
      else Nat.toDigits 10 (n / 10) ++ [Nat.digitChar (n % 10)] := by
  by_cases h : n < 10
  · have h0 : n / 10 = 0 := Nat.div_eq_of_lt h
    simp [Nat.toDigits, Nat.toDigitsCore, h0, h, Nat.mod_eq_of_lt h]
  · have h0 : n / 10 ≠ 0 := by
      intro hc
      have := (Nat.div_eq_zero_iff (by omega)).mp hc
      omega
    have hq : n / 10 < n := Nat.div_lt_self (by omega) (by omega)
    rw [if_neg h]
    show Nat.toDigitsCore 10 (n + 1) n [] = _
    rw [show Nat.toDigitsCore 10 (n + 1) n []
          = Nat.toDigitsCore 10 n (n / 10) [Nat.digitChar (n % 10)] by
        simp [Nat.toDigitsCore, h0]]
    rw [toDigitsCore_append (n / 10) n _ hq]
    rfl

theorem decVal_append_digit (l : List Char) (c : Char) :
    decVal (l ++ [c]) = decVal l * 10 + decDigitVal c := by
  simp [decVal, List.foldl_append]

theorem decDigitVal_digitChar : ∀ k : Nat, k < 10 →
    decDigitVal (Nat.digitChar k) = k := by
  decide

theorem decVal_toDigits (n : Nat) : decVal (Nat.toDigits 10 n) = n := by
  induction n using Nat.strong_induction_on with
  | _ n ih =>
    rw [toDigits_rec]
    by_cases h : n < 10
    · rw [if_pos h]
      show decVal ([] ++ [Nat.digitChar n]) = n
      rw [decVal_append_digit]
      simp [decVal, decDigitVal_digitChar n h]
    · rw [if_neg h]
      rw [decVal_append_digit]
      rw [ih (n / 10) (Nat.div_lt_self (by omega) (by omega))]
      rw [decDigitVal_digitChar (n % 10) (Nat.mod_lt n (by omega))]
      omega

theorem natRepr_injective {m n : Nat} (h : Nat.repr m = Nat.repr n) : m = n := by
  have hd : Nat.toDigits 10 m = Nat.toDigits 10 n := congrArg String.data h
  calc m = decVal (Nat.toDigits 10 m) := (decVal_toDigits m).symm
    _ = decVal (Nat.toDigits 10 n) := by rw [hd]
    _ = n := decVal_toDigits n

theorem string_append_data (s t : String) : (s ++ t).data = s.data ++ t.data :=
  rfl

theorem string_append_cancel {s : String} {t u : String}
    (h : s ++ t = s ++ u) : t = u := by
  have hd : s.data ++ t.data = s.data ++ u.data := congrArg String.data h
  have hdata : t.data = u.data := List.append_cancel_left hd
  cases t
  cases u
  exact congrArg String.mk hdata

theorem pdgNodeId_injective {uid : String} {i j : Nat}
    (h : pdgNodeId uid i = pdgNodeId uid j) : i = j := by
  unfold pdgNodeId at h
  have h1 : ("var_" ++ uid ++ "_") ++ Nat.repr i
      = ("var_" ++ uid ++ "_") ++ Nat.repr j := by
    simpa [String.append_assoc] using h
  exact natRepr_injective (string_append_cancel h1)

/-! ### DiGraph primitive lemmas -/

theorem contains_true_iff {l : List String} {id : String} :
    l.contains id = true ↔ id ∈ l := by
  simp

theorem find?_fst_none {α : Type} {l : List (String × α)} {id : String}
    (h : id ∉ l.map Prod.fst) : l.find? (fun p => p.1 == id) = none := by
  induction l with
  | nil => rfl
  | cons p t ih =>
    simp only [List.map_cons, List.mem_cons, not_or] at h
    simp [List.find?, show (p.1 == id) = false by
      simpa [beq_eq_false_iff_ne] using fun hc => h.1 hc.symm,
      ih h.2]

theorem find?_fst_append_none {α : Type} {l1 : List (String × α)}
    (l2 : List (String × α)) {id : String}
    (h : l1.find? (fun p => p.1 == id) = none) :
    (l1 ++ l2).find? (fun p => p.1 == id) = l2.find? (fun p => p.1 == id) := by
  rw [List.find?_append, h]
  rfl

theorem find?_fst_replace_self {α : Type} {l : List (String × α)} {id : String}
    (a : α) (h : id ∈ l.map Prod.fst) :
    (l.map (fun p => if p.1 == id then (id, a) else p)).find?
      (fun p => p.1 == id) = some (id, a) := by
  induction l with
  | nil => simp at h
  | cons p t ih =>
    by_cases hp : p.1 = id
    · have hb : (p.1 == id) = true := beq_iff_eq.mpr hp
      simp only [List.map_cons, hb, if_true]
      exact List.find?_cons_of_pos _ (by simp)
    · have hb : (p.1 == id) = false := beq_eq_false_iff_ne.mpr hp
      simp only [List.map_cons, hb, if_false]
      rw [List.find?_cons_of_neg _ (by simp [hb])]
      have h2 : id ∈ p.1 :: t.map Prod.fst := by
        simpa only [List.map_cons] using h
      rcases List.mem_cons.mp h2 with hc | hc
      · exact absurd hc.symm hp
      · exact ih hc

theorem find?_fst_replace_ne {α : Type} {l : List (String × α)} {id id' : String}
    (a : α) (h : id' ≠ id) :
    (l.map (fun p => if p.1 == id then (id, a) else p)).find?
      (fun p => p.1 == id') = l.find? (fun p => p.1 == id') := by
  induction l with
  | nil => rfl
  | cons p t ih =>
    by_cases hp : p.1 = id
    · have hb : (p.1 == id) = true := beq_iff_eq.mpr hp
      have hb1 : (id == id') = false :=
        beq_eq_false_iff_ne.mpr (fun hc => h hc.symm)
      have hb2 : (p.1 == id') = false :=
        beq_eq_false_iff_ne.mpr (fun hc => h (hp ▸ hc).symm)
      simp only [List.map_cons, hb, if_true]
      rw [List.find?_cons_of_neg _ (by simp [hb1]),
          List.find?_cons_of_neg _ (by simp [hb2])]
      exact ih
    · have hb : (p.1 == id) = false := beq_eq_false_iff_ne.mpr hp
      simp only [List.map_cons, hb, if_false]
      by_cases hq : p.1 = id'
      · have hb2 : (p.1 == id') = true := beq_iff_eq.mpr hq
        rw [List.find?_cons_of_pos _ (by simp [hb2]),
            List.find?_cons_of_pos _ (by simp [hb2])]
        simp [hb]
      · have hb2 : (p.1 == id') = false := beq_eq_false_iff_ne.mpr hq
        rw [List.find?_cons_of_neg _ (by simp [hb2]),
            List.find?_cons_of_neg _ (by simp [hb2])]
        exact ih

theorem map_fst_replace {α : Type} (l : List (String × α)) (id : String) (a : α) :
    (l.map (fun p => if p.1 == id then (id, a) else p)).map Prod.fst
      = l.map Prod.fst := by
  induction l with
  | nil => rfl
  | cons p t ih =>
    by_cases hp : p.1 = id
    · have hb : (p.1 == id) = true := beq_iff_eq.mpr hp
      simp only [List.map_cons, hb, if_true, ih]
      rw [hp]
    · have hb : (p.1 == id) = false := beq_eq_false_iff_ne.mpr hp
      simp only [List.map_cons, hb, Bool.false_eq_true, if_false, ih]

theorem addNode_not_mem {α : Type} {g : DiGraph α} {id : String} {a : α}
    (h : id ∉ nodeIds g) : addNode g id a = ⟨g.nodes ++ [(id, a)], g.edges⟩ := by
  unfold addNode
  rw [if_neg (by simpa [contains_true_iff] using h)]

theorem addNode_mem {α : Type} {g : DiGraph α} {id : String} {a : α}
    (h : id ∈ nodeIds g) :
    addNode g id a
      = ⟨g.nodes.map (fun p => if p.1 == id then (id, a) else p), g.edges⟩ := by
  unfold addNode
  rw [if_pos (by simpa [contains_true_iff] using h)]

theorem addNode_edges {α : Type} (g : DiGraph α) (id : String) (a : α) :
    (addNode g id a).edges = g.edges := by
  by_cases h : id ∈ nodeIds g
  · rw [addNode_mem h]
  · rw [addNode_not_mem h]

theorem nodeIds_addNode {α : Type} (g : DiGraph α) (id : String) (a : α) :
    nodeIds (addNode g id a)
      = if id ∈ nodeIds g then nodeIds g else nodeIds g ++ [id] := by
  by_cases h : id ∈ nodeIds g
  · rw [addNode_mem h, if_pos h]
    show (g.nodes.map _).map Prod.fst = _
    rw [map_fst_replace]
    rfl
  · rw [addNode_not_mem h, if_neg h]
    show (g.nodes ++ [(id, a)]).map Prod.fst = _
    simp [nodeIds]

theorem nodeLookup_addNode_self {α : Type} (g : DiGraph α) (id : String) (a : α) :
    nodeLookup (addNode g id a) id = some a := by
  by_cases h : id ∈ nodeIds g
  · rw [addNode_mem h]
    unfold nodeLookup
    rw [find?_fst_replace_self a h]
    rfl
  · rw [addNode_not_mem h]
    show ((g.nodes ++ [(id, a)]).find? (fun p => p.1 == id)).map Prod.snd
      = some a
    rw [find?_fst_append_none _ (find?_fst_none h)]
    rw [List.find?_cons_of_pos _ (by simp)]
    rfl

theorem nodeLookup_addNode_ne {α : Type} (g : DiGraph α) {id id' : String}
    (a : α) (h : id' ≠ id) :
    nodeLookup (addNode g id a) id' = nodeLookup g id' := by
  by_cases hm : id ∈ nodeIds g
  · rw [addNode_mem hm]
    unfold nodeLookup
    rw [find?_fst_replace_ne a h]
  · rw [addNode_not_mem hm]
    unfold nodeLookup
    show ((g.nodes ++ [(id, a)]).find? (fun p => p.1 == id')).map Prod.snd = _
    rw [List.find?_append]
    have hb : (id == id') = false :=
      beq_eq_false_iff_ne.mpr (fun hc => h hc.symm)
    rw [show ([(id, a)].find? (fun p => p.1 == id')) = none by
      rw [List.find?_cons_of_neg _ (by simp [hb])]
      rfl]
    rw [Option.or_none]

theorem nodeLookup_isSome_addNode {α : Type} (g : DiGraph α) {id' : String}
    (id : String) (a : α) (h : (nodeLookup g id').isSome) :
    (nodeLookup (addNode g id a) id').isSome := by
  by_cases he : id' = id
  · subst he
    rw [nodeLookup_addNode_self]
    rfl
  · rw [nodeLookup_addNode_ne g a he]
    exact h

theorem mem_nodeIds_iff_isSome {α : Type} {g : DiGraph α} {id : String} :
    id ∈ nodeIds g ↔ (nodeLookup g id).isSome := by
  unfold nodeLookup nodeIds
  induction g.nodes with
  | nil => simp [List.find?]
  | cons p t ih =>
    by_cases hp : p.1 = id
    · simp [List.find?, hp]
    · have hb : (p.1 == id) = false := by simpa [beq_eq_false_iff_ne] using hp
      simp only [List.map_cons, List.mem_cons, List.find?, hb]
      constructor
      · intro hor
        rcases hor with hor | hor
        · exact absurd hor.symm hp
        · exact ih.mp hor
      · intro hs
        exact Or.inr (ih.mpr hs)

theorem ensureNode_of_mem {α : Type} [Inhabited α] {g : DiGraph α}
    {u : String} (h : u ∈ nodeIds g) : ensureNode g u = g := by
  unfold ensureNode
  rw [if_pos (by simpa [contains_true_iff] using h)]

theorem addEdge_of_mem {α : Type} [Inhabited α] {g : DiGraph α}
    {u v : String} (ty : String) (hu : u ∈ nodeIds g) (hv : v ∈ nodeIds g) :
    addEdge g u v ty
      = ⟨g.nodes,
         if g.edges.any (fun e => e.1 == u && e.2.1 == v) then
           g.edges.map (fun e => if e.1 == u && e.2.1 == v then (u, v, ty) else e)
         else g.edges ++ [(u, v, ty)]⟩ := by
  unfold addEdge
  rw [ensureNode_of_mem hu, ensureNode_of_mem hv]
  by_cases h : g.edges.any (fun e => e.1 == u && e.2.1 == v)
  · rw [if_pos h, if_pos h]
  · rw [if_neg h, if_neg h]

theorem addEdge_nodes_of_mem {α : Type} [Inhabited α] {g : DiGraph α}
    {u v : String} (ty : String) (hu : u ∈ nodeIds g) (hv : v ∈ nodeIds g) :
    (addEdge g u v ty).nodes = g.nodes := by
  rw [addEdge_of_mem ty hu hv]

theorem addEdge_nodeLookup_of_mem {α : Type} [Inhabited α] {g : DiGraph α}
    {u v : String} (ty id : String) (hu : u ∈ nodeIds g) (hv : v ∈ nodeIds g) :
    nodeLookup (addEdge g u v ty) id = nodeLookup g id := by
  unfold nodeLookup
  rw [addEdge_nodes_of_mem ty hu hv]

theorem addEdge_edges_of_mem {α : Type} [Inhabited α] {g : DiGraph α}
    {u v : String} (ty : String) (hu : u ∈ nodeIds g) (hv : v ∈ nodeIds g) :
    (addEdge g u v ty).edges
      = if g.edges.any (fun e => e.1 == u && e.2.1 == v) then
          g.edges.map (fun e => if e.1 == u && e.2.1 == v then (u, v, ty) else e)
        else g.edges ++ [(u, v, ty)] := by
  rw [addEdge_of_mem ty hu hv]

theorem mem_addEdge_self {α : Type} [Inhabited α] {g : DiGraph α}
    {u v : String} (ty : String) (hu : u ∈ nodeIds g) (hv : v ∈ nodeIds g) :
    (u, v, ty) ∈ (addEdge g u v ty).edges := by
  rw [addEdge_edges_of_mem ty hu hv]
  by_cases h : g.edges.any (fun e => e.1 == u && e.2.1 == v)
  · rw [if_pos h]
    rcases List.any_eq_true.mp h with ⟨e, he, hmatch⟩
    refine List.mem_map.mpr ⟨e, he, ?_⟩
    rw [if_pos hmatch]
  · rw [if_neg h]
    simp

theorem mem_addEdge_of_mem {α : Type} [Inhabited α] {g : DiGraph α}
    {u v ty : String} {e : String × String × String}
    (hu : u ∈ nodeIds g) (hv : v ∈ nodeIds g)
    (he : e ∈ g.edges) (hty : e.2.2 = ty) : e ∈ (addEdge g u v ty).edges := by
  rw [addEdge_edges_of_mem ty hu hv]
  by_cases h : g.edges.any (fun e => e.1 == u && e.2.1 == v)
  · rw [if_pos h]
    refine List.mem_map.mpr ⟨e, he, ?_⟩
    by_cases hk : (e.1 == u && e.2.1 == v) = true
    · rw [if_pos hk]
      have h1 : e.1 = u := by
        have := (Bool.and_eq_true _ _).mp hk
        exact beq_iff_eq.mp this.1
      have h2 : e.2.1 = v := by
        have := (Bool.and_eq_true _ _).mp hk
        exact beq_iff_eq.mp this.2
      calc (u, v, ty) = (e.1, e.2.1, e.2.2) := by rw [h1, h2, hty]
        _ = e := rfl
    · rw [if_neg hk]
  · rw [if_neg h]
    exact List.mem_append_left _ he

theorem addEdge_edges_mem_or {α : Type} [Inhabited α] {g : DiGraph α}
    {u v ty : String} {e : String × String × String}
    (hu : u ∈ nodeIds g) (hv : v ∈ nodeIds g)
    (he : e ∈ (addEdge g u v ty).edges) : e ∈ g.edges ∨ e = (u, v, ty) := by
  rw [addEdge_edges_of_mem ty hu hv] at he
  by_cases h : g.edges.any (fun e => e.1 == u && e.2.1 == v)
  · rw [if_pos h] at he
    rcases List.mem_map.mp he with ⟨e', he', hmap⟩
    by_cases hk : (e'.1 == u && e'.2.1 == v) = true
    · rw [if_pos hk] at hmap
      exact Or.inr hmap.symm
    · rw [if_neg hk] at hmap
      exact Or.inl (hmap ▸ he')
  · rw [if_neg h] at he
    rcases List.mem_append.mp he with he | he
    · exact Or.inl he
    · exact Or.inr (by simpa using he)

/-! ### Queue lemmas -/

theorem add_file_seen {q : FileQueue} {p : String}
    (h : p ∈ q.processed_files) : q.add_file p = q := by
  unfold FileQueue.add_file
  rw [if_pos h]

theorem add_file_fresh {q : FileQueue} {p : String}
    (h : p ∉ q.processed_files) :
    q.add_file p = { q with queue := q.queue ++ [⟨p, ""⟩],
                            processed_files := p :: q.processed_files,
                            unfinished := q.unfinished + 1 } := by
  unfold FileQueue.add_file
  rw [if_neg h]

theorem add_file_mem_processed (q : FileQueue) (p : String) :
    p ∈ (q.add_file p).processed_files := by
  by_cases h : p ∈ q.processed_files
  · rw [add_file_seen h]
    exact h
  · rw [add_file_fresh h]
    exact List.mem_cons_self _ _

theorem add_file_idem (q : FileQueue) (p : String) :
    (q.add_file p).add_file p = q.add_file p :=
  add_file_seen (add_file_mem_processed q p)

theorem add_file_processed_grow (q : FileQueue) (p : String) :
    q.processed_files ⊆ (q.add_file p).processed_files := by
  by_cases h : p ∈ q.processed_files
  · rw [add_file_seen h]
    exact fun x hx => hx
  · rw [add_file_fresh h]
    exact fun x hx => List.mem_cons_of_mem _ hx

theorem get_file_processed {q q' : FileQueue} {t : FileTask}
    (h : q.get_file = some (t, q')) : q'.processed_files = q.processed_files := by
  unfold FileQueue.get_file at h
  rcases hq : q.queue with _ | ⟨t0, rest⟩
  · rw [hq] at h
    exact absurd h (by simp)
  · rw [hq] at h
    have h2 := Prod.mk.inj (Option.some.inj h)
    rw [← h2.2]

theorem task_done_processed {q q' : FileQueue}
    (h : q.task_done = some q') : q'.processed_files = q.processed_files := by
  unfold FileQueue.task_done at h
  rcases hq : q.unfinished with _ | n
  · rw [hq] at h
    exact absurd h (by simp)
  · rw [hq] at h
    rw [← Option.some.inj h]

theorem iterate_add_file (q : FileQueue) (p : String) :
    ∀ n : Nat, 1 ≤ n →
      ((fun s : FileQueue => s.add_file p)^[n]) q = q.add_file p := by
  intro n
  induction n with
  | zero => omega
  | succ m ih =>
    intro _
    rw [Function.iterate_succ_apply']
    by_cases hm : 1 ≤ m
    · rw [ih hm, add_file_idem]
    · have : m = 0 := by omega
      subst this
      rfl

theorem countTasks_add_fresh {q : FileQueue} {p : String}
    (h : p ∉ q.processed_files) :
    countTasks (q.add_file p) p = countTasks q p + 1 := by
  rw [add_file_fresh h]
  unfold countTasks
  simp

theorem doneCount_cons_add (p : String) (rest : List QueueOp) :
    doneCount (QueueOp.add p :: rest) = doneCount rest := rfl

theorem doneCount_cons_get (rest : List QueueOp) :
    doneCount (QueueOp.get :: rest) = doneCount rest := rfl

theorem doneCount_cons_done (rest : List QueueOp) :
    doneCount (QueueOp.done_ :: rest) = doneCount rest + 1 := by
  show (QueueOp.done_ :: rest.filter isDoneOp).length = _
  rfl

theorem runOps_unfinished : ∀ (ops : List QueueOp) (q q' : FileQueue),
    runOps q ops = some q' →
    q'.unfinished + doneCount ops = q.unfinished + succEnq q ops := by
  intro ops
  induction ops with
  | nil =>
    intro q q' h
    have : q = q' := Option.some.inj h
    subst this
    simp [doneCount, succEnq]
  | cons op rest ih =>
    intro q q' h
    match op with
    | QueueOp.add p =>
      have h' : runOps (q.add_file p) rest = some q' := h
      have hih := ih _ _ h'
      rw [doneCount_cons_add]
      show q'.unfinished + doneCount rest
        = q.unfinished
          + ((if p ∈ q.processed_files then 0 else 1) + succEnq (q.add_file p) rest)
      by_cases hm : p ∈ q.processed_files
      · rw [if_pos hm]
        rw [add_file_seen hm] at hih
        rw [add_file_seen hm]
        omega
      · rw [if_neg hm]
        have hunf : (q.add_file p).unfinished = q.unfinished + 1 := by
          rw [add_file_fresh hm]
        omega
    | QueueOp.get =>
      rcases hg : q.get_file with _ | ⟨t, q2⟩
      · unfold runOps at h
        rw [hg] at h
        exact absurd h (by simp)
      · unfold runOps at h
        rw [hg] at h
        have h2 : runOps q2 rest = some q' := h
        have hih := ih _ _ h2
        rw [doneCount_cons_get]
        have hs : succEnq q (QueueOp.get :: rest) = succEnq q2 rest := by
          show (match q.get_file with
                | none => 0
                | some (_, q3) => succEnq q3 rest) = succEnq q2 rest
          rw [hg]
        rw [hs]
        have hunf : q2.unfinished = q.unfinished := by
          unfold FileQueue.get_file at hg
          rcases hq : q.queue with _ | ⟨t0, r0⟩
          · rw [hq] at hg
            exact absurd hg (by simp)
          · rw [hq] at hg
            have hp2 := Prod.mk.inj (Option.some.inj hg)
            rw [← hp2.2]
        omega
    | QueueOp.done_ =>
      rcases hd : q.task_done with _ | q2
      · unfold runOps at h
        rw [hd] at h
        exact absurd h (by simp)
      · unfold runOps at h
        rw [hd] at h
        have h2 : runOps q2 rest = some q' := h
        have hih := ih _ _ h2
        rw [doneCount_cons_done]
        have hs : succEnq q (QueueOp.done_ :: rest) = succEnq q2 rest := by
          show (match q.task_done with
                | none => 0
                | some q3 => succEnq q3 rest) = succEnq q2 rest
          rw [hd]
        rw [hs]
        have hunf : q2.unfinished + 1 = q.unfinished := by
          unfold FileQueue.task_done at hd
          rcases hq : q.unfinished with _ | n
          · rw [hq] at hd
            exact absurd hd (by simp)
          · rw [hq] at hd
            rw [← Option.some.inj hd]
        omega

/-! ### String helper lemmas -/

theorem stringMk_eq_empty_iff (l : List Char) : String.mk l = "" ↔ l = [] := by
  constructor
  · intro h
    exact congrArg String.data h
  · intro h
    rw [h]

theorem entryId_ne_exitId (uid : String) :
    ("entry_" ++ uid) ≠ ("exit_" ++ uid) := by
  intro h
  have hd := congrArg String.data h
  rw [string_append_data, string_append_data] at hd
  rw [show ("entry_").data = ['e', 'n', 't', 'r', 'y', '_'] from rfl,
      show ("exit_").data = ['e', 'x', 'i', 't', '_'] from rfl] at hd
  have h3 : some 'n' = some 'x' := by
    simpa using congrArg (fun l => l.get? 1) hd
  exact absurd (Option.some.inj h3) (by decide)

theorem dropWhile_head_false {α : Type} {p : α → Bool} :
    ∀ {l : List α} {c : α} {rest : List α},
      l.dropWhile p = c :: rest → p c = false := by
  intro l
  induction l with
  | nil =>
    intro c rest h
    exact absurd h (by simp)
  | cons a t ih =>
    intro c rest h
    rw [List.dropWhile_cons] at h
    by_cases ha : p a = true
    · rw [if_pos ha] at h
      exact ih h
    · rw [if_neg ha] at h
      have := List.cons.inj h
      rw [← this.1]
      exact Bool.eq_false_iff.mpr ha

theorem trimChars_head_not_space {l : List Char} {c : Char} {rest : List Char}
    (hr : trimChars l = c :: rest) : isPySpace c = false := by
  unfold trimChars at hr
  have hsuf : (l.dropWhile isPySpace).reverse.dropWhile isPySpace
      <:+ (l.dropWhile isPySpace).reverse := List.dropWhile_suffix _
  rcases hsuf with ⟨t, ht⟩
  have hl1 : l.dropWhile isPySpace
      = ((l.dropWhile isPySpace).reverse.dropWhile isPySpace).reverse
        ++ t.reverse := by
    have := congrArg List.reverse ht
    rw [List.reverse_append, List.reverse_reverse] at this
    exact this.symm
  rw [hr] at hl1
  exact dropWhile_head_false (by rw [hl1]; rfl)

theorem lhsOf_not_starts_space (t : List Char) :
    listStartsWith (" ").data (lhsOf t) = false := by
  unfold lhsOf
  rcases hr : trimChars (t.takeWhile (fun c => c ≠ '=')) with _ | ⟨c, rest⟩
  · rfl
  · have hc := trimChars_head_not_space hr
    show listStartsWith [' '] (c :: rest) = false
    unfold listStartsWith
    have : (' ' == c) = false := by
      rcases hcc : (' ' == c) with _ | _
      · rfl
      · have : c = ' ' := (beq_iff_eq.mp hcc).symm
        rw [this] at hc
        exact absurd hc (by decide)
    rw [this]
    rfl

/-! ### Python range and indexing lemmas -/

theorem intRange_empty {a b : Int} (h : b ≤ a) : intRange a b = [] := by
  unfold intRange
  rw [show (b - a).toNat = 0 by omega]
  rfl

theorem intRange_cons {a b : Int} (h : a < b) :
    intRange a b = a :: intRange (a + 1) b := by
  unfold intRange
  rw [show (b - a).toNat = (b - (a + 1)).toNat + 1 by omega]
  rw [List.range_succ_eq_map]
  rw [List.map_cons, List.map_map]
  rw [show a + Int.ofNat 0 = a by simp]
  refine congrArg (List.cons a) (List.map_congr_left ?_)
  intro k _
  show a + ((k + 1 : Nat) : Int) = (a + 1) + ((k : Nat) : Int)
  push_cast
  ring

theorem pyGet_nonneg {l : List String} {i : Int} (h0 : 0 ≤ i)
    (h1 : i < (l.length : Int)) : pyGet l i = some (l.getD i.toNat "") := by
  unfold pyGet
  rw [if_pos ⟨h0, h1⟩]

/-! ### Bridging the `_extract_variables` scan to its line-number form -/

theorem varLineStep_eq (raw : String) (i : Int) (tail : List (String × Int)) :
    varLineStep raw i tail
      = if ((trimChars raw.data).contains '=' ∧
            ¬ listStartsWith ("#").data (trimChars raw.data)) ∧
           lhsOf (trimChars raw.data) ≠ [] then
          (String.mk (lhsOf (trimChars raw.data)), i + 1) :: tail
        else tail := by
  unfold varLineStep
  by_cases hc1 : (trimChars raw.data).contains '=' ∧
      ¬ listStartsWith ("#").data (trimChars raw.data)
  · rw [if_pos hc1]
    by_cases hv : lhsOf (trimChars raw.data) = []
    · rw [if_neg (fun hr => hr.1 (stringMk_eq_empty_iff _ |>.mpr hv)),
          if_neg (fun hr => hr.2 hv)]
    · rw [if_pos ⟨fun hc => hv (stringMk_eq_empty_iff _ |>.mp hc),
          by rw [show (String.mk (lhsOf (trimChars raw.data))).data
                  = lhsOf (trimChars raw.data) from rfl,
                 lhsOf_not_starts_space]
             decide⟩,
          if_pos ⟨hc1, hv⟩]
  · rw [if_neg hc1, if_neg (fun hr => hc1 hr.1)]

theorem tailScan_nil (n le : Int) : tailScan [] n le = [] := rfl

theorem tailScan_cut : ∀ (l : List String) {n le : Int}, le < n →
    tailScan l n le = [] := by
  intro l
  cases l with
  | nil => intro n le _; rfl
  | cons raw rest =>
    intro n le h
    unfold tailScan
    rw [if_pos h]

theorem tailScan_cons (raw : String) (rest : List String) {n le : Int}
    (h : ¬ le < n) :
    tailScan (raw :: rest) n le
      = if ((trimChars raw.data).contains '=' ∧
            ¬ listStartsWith ("#").data (trimChars raw.data)) ∧
           lhsOf (trimChars raw.data) ≠ [] then
          (String.mk (lhsOf (trimChars raw.data)), n) :: tailScan rest (n + 1) le
        else tailScan rest (n + 1) le := by
  conv_lhs => rw [tailScan]
  rw [if_neg h]

theorem extractVarsAux_eq_tailScan : ∀ (k : Nat) (lines : List String)
    (j : Nat) (le : Int), lines.length - j ≤ k →
    extractVarsAux lines (intRange (j : Int) (min le (lines.length : Int)))
      = some (tailScan (lines.drop j) ((j : Int) + 1) le) := by
  intro k
  induction k with
  | zero =>
    intro lines j le hk
    have hj : lines.length ≤ j := by omega
    rw [intRange_empty (by
      calc min le (lines.length : Int) ≤ (lines.length : Int) := min_le_right _ _
        _ ≤ (j : Int) := by exact_mod_cast Nat.cast_le.mpr hj)]
    rw [List.drop_eq_nil_of_le hj]
    rfl
  | succ m ih =>
    intro lines j le hk
    by_cases hj : lines.length ≤ j
    · rw [intRange_empty (by
        calc min le (lines.length : Int) ≤ (lines.length : Int) := min_le_right _ _
          _ ≤ (j : Int) := by exact_mod_cast Nat.cast_le.mpr hj)]
      rw [List.drop_eq_nil_of_le hj]
      rfl
    · have hjlen : j < lines.length := by omega
      by_cases hle : le ≤ (j : Int)
      · rw [intRange_empty (le_trans (min_le_left _ _) hle)]
        rw [List.drop_eq_getElem_cons hjlen]
        rw [tailScan_cut _ (by omega)]
        rfl
      · have hlt : (j : Int) < min le (lines.length : Int) := by
          apply lt_min
          · omega
          · exact_mod_cast hjlen
        rw [intRange_cons hlt]
        unfold extractVarsAux
        rw [pyGet_nonneg (by omega) (by exact_mod_cast hjlen)]
        rw [show ((j : Int) + 1) = ((j + 1 : Nat) : Int) by push_cast; ring]
        rw [ih lines (j + 1) le (by omega)]
        rw [show lines.getD (((j : Nat) : Int)).toNat "" = lines.getD j "" by
          rw [show (((j : Nat) : Int)).toNat = j by omega]]
        rw [List.getD_eq_getElem lines "" hjlen]
        rw [List.drop_eq_getElem_cons hjlen]
        show some (varLineStep lines[j] ((j : Nat) : Int)
            (tailScan (lines.drop (j + 1)) (((j + 1 : Nat) : Int) + 1) le))
          = some (tailScan (lines[j] :: lines.drop (j + 1)) (((j : Nat) : Int) + 1) le)
        rw [tailScan_cons _ _ (by omega)]
        rw [show (((j : Nat) : Int) + 1 + 1) = (((j + 1 : Nat) : Int) + 1) by
          push_cast
          ring]
        rw [varLineStep_eq]

theorem pdgCandidatesAux_cons (raw : String) (rest : List String)
    (n ls le : Int) :
    pdgCandidatesAux (raw :: rest) n ls le
      = if ls ≤ n ∧ n ≤ le ∧ ((trimChars raw.data).contains '=' ∧
            ¬ listStartsWith ("#").data (trimChars raw.data)) ∧
           lhsOf (trimChars raw.data) ≠ [] then
          (String.mk (lhsOf (trimChars raw.data)), n)
            :: pdgCandidatesAux rest (n + 1) ls le
        else pdgCandidatesAux rest (n + 1) ls le := rfl

theorem pdgCandidatesAux_cut : ∀ (l : List String) (n ls le : Int), le < n →
    pdgCandidatesAux l n ls le = [] := by
  intro l
  induction l with
  | nil => intro n ls le _; rfl
  | cons raw rest ih =>
    intro n ls le h
    rw [pdgCandidatesAux_cons]
    rw [if_neg (fun hr => absurd hr.2.1 (not_le.mpr h))]
    exact ih (n + 1) ls le (by omega)

theorem pdgCandidatesAux_eq_tailScan : ∀ (l : List String) (n ls le : Int),
    ls ≤ n → pdgCandidatesAux l n ls le = tailScan l n le := by
  intro l
  induction l with
  | nil => intro n ls le _; rfl
  | cons raw rest ih =>
    intro n ls le h
    by_cases hle : le < n
    · rw [pdgCandidatesAux_cut _ _ _ _ hle, tailScan_cut _ hle]
    · rw [tailScan_cons _ _ hle, pdgCandidatesAux_cons]
      by_cases hc : ((trimChars raw.data).contains '=' ∧
          ¬ listStartsWith ("#").data (trimChars raw.data)) ∧
          lhsOf (trimChars raw.data) ≠ []
      · rw [if_pos ⟨h, not_lt.mp hle, hc⟩, if_pos hc,
            ih (n + 1) ls le (by omega)]
      · rw [if_neg (fun hr => hc hr.2.2), if_neg hc,
            ih (n + 1) ls le (by omega)]

theorem pdgCandidatesAux_shift : ∀ (l : List String) (n ls le : Int),
    n ≤ ls →
    pdgCandidatesAux l n ls le = tailScan (l.drop (ls - n).toNat) ls le := by
  intro l
  induction l with
  | nil => intro n ls le _; rw [List.drop_nil]; rfl
  | cons raw rest ih =>
    intro n ls le h
    by_cases heq : ls ≤ n
    · have hn : n = ls := by omega
      subst hn
      rw [show (n - n).toNat = 0 by omega, List.drop_zero]
      exact pdgCandidatesAux_eq_tailScan _ _ _ _ (le_refl n)
    · rw [pdgCandidatesAux_cons, if_neg (fun hr => heq hr.1),
          ih (n + 1) ls le (by omega)]
      rw [show ((raw :: rest).drop (ls - n).toNat)
            = rest.drop (ls - (n + 1)).toNat by
        rw [show (ls - n).toNat = (ls - (n + 1)).toNat + 1 by omega]
        rfl]

theorem extract_variables_eq (content : String) (ls le : Int) (h : 1 ≤ ls) :
    extract_variables content ls le
      = some (pdgCandidates (splitlines content) ls le) := by
  unfold extract_variables pdgCandidates
  have hj : (((ls - 1).toNat : Nat) : Int) = ls - 1 := by omega
  have hb := extractVarsAux_eq_tailScan (splitlines content).length
    (splitlines content) (ls - 1).toNat le (by omega)
  rw [hj] at hb
  rw [show ls - 1 + 1 = ls by ring] at hb
  rw [hb]
  rw [pdgCandidatesAux_shift _ 1 ls le h]

theorem pdgCandidatesAux_mem_bounds : ∀ (l : List String) (n ls le : Int)
    (v : String) (m : Int), (v, m) ∈ pdgCandidatesAux l n ls le →
    ls ≤ m ∧ m ≤ le ∧ m < n + (l.length : Int) := by
  intro l
  induction l with
  | nil =>
    intro n ls le v m h
    exact absurd h (List.not_mem_nil _)
  | cons raw rest ih =>
    intro n ls le v m h
    rw [pdgCandidatesAux_cons] at h
    by_cases hc : ls ≤ n ∧ n ≤ le ∧ ((trimChars raw.data).contains '=' ∧
        ¬ listStartsWith ("#").data (trimChars raw.data)) ∧
        lhsOf (trimChars raw.data) ≠ []
    · rw [if_pos hc] at h
      rcases List.mem_cons.mp h with h1 | h1
      · have hm : m = n := (Prod.mk.inj h1).2
        subst hm
        refine ⟨hc.1, hc.2.1, ?_⟩
        rw [List.length_cons]
        push_cast
        omega
      · have := ih (n + 1) ls le v m h1
        refine ⟨this.1, this.2.1, ?_⟩
        have h2 := this.2.2
        rw [List.length_cons]
        push_cast
        push_cast at h2
        omega
    · rw [if_neg hc] at h
      have := ih (n + 1) ls le v m h
      refine ⟨this.1, this.2.1, ?_⟩
      have h2 := this.2.2
      rw [List.length_cons]
      push_cast
      push_cast at h2
      omega

/-! ### Evaluating the CFG builder -/

theorem two_node_one_edge {α : Type} [Inhabited α] (i1 i2 : String)
    (a1 a2 : α) (ty : String) (hne : i1 ≠ i2) :
    addEdge (addNode (addNode (DiGraph.empty : DiGraph α) i1 a1) i2 a2)
        i1 i2 ty
      = ⟨[(i1, a1), (i2, a2)], [(i1, i2, ty)]⟩ := by
  have h0 : i1 ∉ nodeIds (DiGraph.empty : DiGraph α) := by
    simp [nodeIds, DiGraph.empty]
  have step1 : addNode (DiGraph.empty : DiGraph α) i1 a1
      = ⟨[(i1, a1)], []⟩ := by
    rw [addNode_not_mem h0]
    rfl
  rw [step1]
  have h1 : i2 ∉ nodeIds (⟨[(i1, a1)], []⟩ : DiGraph α) := by
    simp only [nodeIds, List.map_cons, List.map_nil, List.mem_singleton]
    exact Ne.symm hne
  have step2 : addNode (⟨[(i1, a1)], []⟩ : DiGraph α) i2 a2
      = ⟨[(i1, a1), (i2, a2)], []⟩ := by
    rw [addNode_not_mem h1]
    rfl
  rw [step2]
  have hu : i1 ∈ nodeIds (⟨[(i1, a1), (i2, a2)], []⟩ : DiGraph α) := by
    simp [nodeIds]
  have hv : i2 ∈ nodeIds (⟨[(i1, a1), (i2, a2)], []⟩ : DiGraph α) := by
    simp [nodeIds]
  rw [addEdge_of_mem ty hu hv]
  rfl

theorem cfg_build_eq (u : ASTNode) (content : String) (h1 : 1 ≤ u.line_start)
    (h2 : 1 ≤ u.line_end) :
    CFGBuilder.build u content
      = some ⟨[("entry_" ++ u.id,
                ⟨"entry_" ++ u.id, "entry", u.id, u.line_start,
                  lineAt (splitlines content) u.line_start⟩),
               ("exit_" ++ u.id,
                ⟨"exit_" ++ u.id, "exit", u.id, u.line_end,
                  lineAt (splitlines content) u.line_end⟩)],
              [("entry_" ++ u.id, "exit_" ++ u.id, "normal")]⟩ := by
  unfold CFGBuilder.build
  have hsnip : ∀ n : Int, 1 ≤ n →
      (if n ≤ ((splitlines content).length : Int)
       then pyGet (splitlines content) (n - 1) else some "")
        = some (lineAt (splitlines content) n) := by
    intro n hn
    by_cases hc : n ≤ ((splitlines content).length : Int)
    · rw [if_pos hc, pyGet_nonneg (by omega) (by omega)]
      unfold lineAt
      rw [if_pos ⟨hn, hc⟩]
    · rw [if_neg hc]
      unfold lineAt
      rw [if_neg (fun hr => hc hr.2)]
  rw [hsnip u.line_start h1, hsnip u.line_end h2]
  show some (addEdge (addNode (addNode (DiGraph.empty : DiGraph ControlFlowNode)
      ("entry_" ++ u.id)
      ⟨"entry_" ++ u.id, "entry", u.id, u.line_start,
        lineAt (splitlines content) u.line_start⟩)
      ("exit_" ++ u.id)
      ⟨"exit_" ++ u.id, "exit", u.id, u.line_end,
        lineAt (splitlines content) u.line_end⟩)
      ("entry_" ++ u.id) ("exit_" ++ u.id) ("normal")) = _
  rw [two_node_one_edge _ _ _ _ _ (entryId_ne_exitId u.id)]

/-! ### Evaluating the PDG builder -/

theorem foldl_addNode_append {α β : Type} (keyF : β → String) (valF : β → α) :
    ∀ (l : List β) (g : DiGraph α),
      (∀ b ∈ l, keyF b ∉ nodeIds g) → (l.map keyF).Nodup →
      l.foldl (fun g b => addNode g (keyF b) (valF b)) g
        = ⟨g.nodes ++ l.map (fun b => (keyF b, valF b)), g.edges⟩ := by
  intro l
  induction l with
  | nil =>
    intro g _ _
    show g = _
    cases g
    simp
  | cons b t ih =>
    intro g hfresh hnodup
    show t.foldl _ (addNode g (keyF b) (valF b)) = _
    rw [addNode_not_mem (hfresh b (List.mem_cons_self _ _))]
    have hnd := List.nodup_cons.mp (by simpa only [List.map_cons] using hnodup)
    have hf2 : ∀ b' ∈ t, keyF b'
        ∉ nodeIds (⟨g.nodes ++ [(keyF b, valF b)], g.edges⟩ : DiGraph α) := by
      intro b' hb' hmem
      simp only [nodeIds, List.map_append, List.map_cons, List.map_nil] at hmem
      rcases List.mem_append.mp hmem with hm | hm
      · exact hfresh b' (List.mem_cons_of_mem _ hb') hm
      · have hm1 : keyF b' = keyF b := by simpa using hm
        exact hnd.1 (hm1 ▸ List.mem_map.mpr ⟨b', hb', rfl⟩)
    rw [ih _ hf2 hnd.2]
    rw [List.map_cons, List.append_assoc]
    rfl

theorem foldl_addEdge_append {α β : Type} [Inhabited α] (ty : String)
    (srcF tgtF : β → String) :
    ∀ (l : List β) (g : DiGraph α),
      (∀ b ∈ l, srcF b ∈ nodeIds g ∧ tgtF b ∈ nodeIds g) →
      (∀ b ∈ l, ∀ e ∈ g.edges, ¬ (e.1 = srcF b ∧ e.2.1 = tgtF b)) →
      (l.map (fun b => (srcF b, tgtF b))).Nodup →
      l.foldl (fun g b => addEdge g (srcF b) (tgtF b) ty) g
        = ⟨g.nodes, g.edges ++ l.map (fun b => (srcF b, tgtF b, ty))⟩ := by
  intro l
  induction l with
  | nil =>
    intro g _ _ _
    show g = _
    cases g
    simp
  | cons b t ih =>
    intro g hmem hfresh hnodup
    show t.foldl _ (addEdge g (srcF b) (tgtF b) ty) = _
    have hb := hmem b (List.mem_cons_self _ _)
    rw [addEdge_of_mem ty hb.1 hb.2]
    have hany : (g.edges.any (fun e => e.1 == srcF b && e.2.1 == tgtF b))
        = false := by
      rw [List.any_eq_false]
      intro e he
      intro hk
      have hk2 := (Bool.and_eq_true _ _).mp hk
      exact hfresh b (List.mem_cons_self _ _) e he
        ⟨beq_iff_eq.mp hk2.1, beq_iff_eq.mp hk2.2⟩
    rw [if_neg (by rw [hany]; exact Bool.false_ne_true)]
    have hnd := List.nodup_cons.mp (by simpa only [List.map_cons] using hnodup)
    have hmem2 : ∀ b' ∈ t, srcF b'
        ∈ nodeIds (⟨g.nodes, g.edges ++ [(srcF b, tgtF b, ty)]⟩ : DiGraph α)
        ∧ tgtF b' ∈ nodeIds (⟨g.nodes, g.edges ++ [(srcF b, tgtF b, ty)]⟩ : DiGraph α) := by
      intro b' hb'
      exact hmem b' (List.mem_cons_of_mem _ hb')
    have hfresh2 : ∀ b' ∈ t,
        ∀ e ∈ (⟨g.nodes, g.edges ++ [(srcF b, tgtF b, ty)]⟩ : DiGraph α).edges,
        ¬ (e.1 = srcF b' ∧ e.2.1 = tgtF b') := by
      intro b' hb' e he hk
      rcases List.mem_append.mp he with hm | hm
      · exact hfresh b' (List.mem_cons_of_mem _ hb') e hm hk
      · have he2 : e = (srcF b, tgtF b, ty) := by simpa using hm
        apply hnd.1
        have : (srcF b', tgtF b') = (srcF b, tgtF b) := by
          rw [← hk.1, ← hk.2, he2]
        rw [← this]
        exact List.mem_map.mpr ⟨b', hb', rfl⟩
    rw [ih _ hmem2 hfresh2 hnd.2]
    rw [List.map_cons, List.append_assoc]
    rfl

theorem pdg_build_eq (u : ASTNode) (content : String) (h : 1 ≤ u.line_start) :
    PDGBuilder.build u content
      = some ⟨(pdgCandidates (splitlines content) u.line_start u.line_end).enum.map
                (fun p => (pdgNodeId u.id p.1,
                  ⟨pdgNodeId u.id p.1, p.2.1, p.2.2, u.name⟩)),
              (List.range
                ((pdgCandidates (splitlines content) u.line_start u.line_end).length - 1)).map
                (fun i => (pdgNodeId u.id i, pdgNodeId u.id (i + 1), "data_flow"))⟩ := by
  unfold PDGBuilder.build
  rw [extract_variables_eq content _ _ h]
  have hkeys : (pdgCandidates (splitlines content) u.line_start u.line_end).enum.map
      (fun p => pdgNodeId u.id p.1)
      = (List.range (pdgCandidates (splitlines content) u.line_start u.line_end).length).map
          (pdgNodeId u.id) := by
    rw [show (fun p : Nat × (String × Int) => pdgNodeId u.id p.1)
          = (pdgNodeId u.id) ∘ Prod.fst from rfl]
    rw [← List.map_map, List.enum_map_fst]
  have hnodesEq := foldl_addNode_append
    (fun p : Nat × (String × Int) => pdgNodeId u.id p.1)
    (fun p : Nat × (String × Int) =>
      (⟨pdgNodeId u.id p.1, p.2.1, p.2.2, u.name⟩ : ProgramDependencyNode))
    (pdgCandidates (splitlines content) u.line_start u.line_end).enum
    DiGraph.empty
    (by
      intro b _ hmem
      simp [nodeIds, DiGraph.empty] at hmem)
    (by
      rw [hkeys]
      exact (List.nodup_range _).map (fun a b hab => pdgNodeId_injective hab))
  show some ((List.range
      ((pdgCandidates (splitlines content) u.line_start u.line_end).length - 1)).foldl
        (fun g i => addEdge g (pdgNodeId u.id i) (pdgNodeId u.id (i + 1)) ("data_flow"))
        ((pdgCandidates (splitlines content) u.line_start u.line_end).enum.foldl
          (fun g p => addNode g (pdgNodeId u.id p.1)
            (⟨pdgNodeId u.id p.1, p.2.1, p.2.2, u.name⟩ : ProgramDependencyNode))
          DiGraph.empty)) = _
  rw [show ((pdgCandidates (splitlines content) u.line_start u.line_end).enum.foldl
      (fun g p => addNode g (pdgNodeId u.id p.1)
        ⟨pdgNodeId u.id p.1, p.2.1, p.2.2, u.name⟩)
      DiGraph.empty)
    = (⟨(pdgCandidates (splitlines content) u.line_start u.line_end).enum.map
        (fun p => (pdgNodeId u.id p.1,
          (⟨pdgNodeId u.id p.1, p.2.1, p.2.2, u.name⟩ : ProgramDependencyNode))),
       []⟩ : DiGraph ProgramDependencyNode) from hnodesEq]
  have hids : nodeIds (⟨(pdgCandidates (splitlines content) u.line_start u.line_end).enum.map
      (fun p => (pdgNodeId u.id p.1,
        (⟨pdgNodeId u.id p.1, p.2.1, p.2.2, u.name⟩ : ProgramDependencyNode))),
      []⟩ : DiGraph ProgramDependencyNode)
      = (List.range (pdgCandidates (splitlines content) u.line_start u.line_end).length).map
          (pdgNodeId u.id) := by
    show ((pdgCandidates (splitlines content) u.line_start u.line_end).enum.map _).map Prod.fst = _
    rw [List.map_map]
    exact hkeys
  have hedgesEq := foldl_addEdge_append ("data_flow")
    (fun i : Nat => pdgNodeId u.id i) (fun i : Nat => pdgNodeId u.id (i + 1))
    (List.range
      ((pdgCandidates (splitlines content) u.line_start u.line_end).length - 1))
    (⟨(pdgCandidates (splitlines content) u.line_start u.line_end).enum.map
        (fun p => (pdgNodeId u.id p.1,
          (⟨pdgNodeId u.id p.1, p.2.1, p.2.2, u.name⟩ : ProgramDependencyNode))),
       []⟩ : DiGraph ProgramDependencyNode)
    (by
      intro i hi
      rw [hids]
      have hi2 := List.mem_range.mp hi
      constructor
      · exact List.mem_map.mpr ⟨i, List.mem_range.mpr (by omega), rfl⟩
      · exact List.mem_map.mpr ⟨i + 1, List.mem_range.mpr (by omega), rfl⟩)
    (by
      intro i _ e he
      exact absurd he (List.not_mem_nil _))
    ((List.nodup_range _).map (fun a b hab =>
      pdgNodeId_injective (congrArg Prod.fst hab)))
  rw [hedgesEq]
  rfl

/-! ### Extracted trees have 1-based line numbers -/

theorem allNodesList_append : ∀ (a b : List ASTNode),
    allNodesList (a ++ b) = allNodesList a ++ allNodesList b := by
  intro a
  induction a with
  | nil => intro b; rfl
  | cons c t ih =>
    intro b
    show c.allNodes ++ allNodesList (t ++ b) = _
    rw [ih, ← List.append_assoc]
    rfl

theorem allNodes_leaf (nid : String) (ty : NodeType) (nm fp : String)
    (ls le : Int) :
    (ASTNode.mk nid ty nm fp ls le []).allNodes
      = [ASTNode.mk nid ty nm fp ls le []] := rfl

/-- The line-number property asked of every node of a list of trees. -/
def GoodLines (l : List ASTNode) : Prop :=
  ∀ n ∈ allNodesList l, 1 ≤ n.line_start ∧ 1 ≤ n.line_end

theorem goodLines_nil : GoodLines [] := by
  intro n hn
  exact absurd hn (List.not_mem_nil _)

theorem goodLines_append {a b : List ASTNode} (ha : GoodLines a)
    (hb : GoodLines b) : GoodLines (a ++ b) := by
  intro n hn
  rw [allNodesList_append] at hn
  rcases List.mem_append.mp hn with h | h
  · exact ha n h
  · exact hb n h

mutual

theorem extract_entities_good (node : TSNode) (content fp : String) :
    GoodLines (extract_python_entities node content fp) := by
  rcases node with ⟨ty, sr, sb, er, eb, cs⟩
  rw [extract_python_entities]
  by_cases hf : ty = "function_definition"
  · rw [if_pos hf]
    rcases hid : firstIdentifier (TSNode.mk ty sr sb er eb cs) content with _ | nm
    · exact extract_list_good cs content fp
    · show GoodLines (if nm ≠ "" then
          ASTNode.mk ("func_" ++ replaceChar '/' '_' fp ++ "_" ++ nm)
            .function nm fp ((sr : Int) + 1) ((er : Int) + 1) []
            :: extractEntitiesList cs content fp
        else extractEntitiesList cs content fp)
      by_cases hnm : nm ≠ ""
      · rw [if_pos hnm]
        intro n hn
        rcases List.mem_append.mp (by
            simpa only [allNodesList, allNodes_leaf] using hn) with h | h
        · have hn2 : n = ASTNode.mk
              ("func_" ++ replaceChar '/' '_' fp ++ "_" ++ nm) .function nm fp
              ((sr : Int) + 1) ((er : Int) + 1) [] := by simpa using h
          rw [hn2]
          constructor
          · show (1 : Int) ≤ (sr : Int) + 1
            omega
          · show (1 : Int) ≤ (er : Int) + 1
            omega
        · exact extract_list_good cs content fp n h
      · rw [if_neg hnm]
        exact extract_list_good cs content fp
  · rw [if_neg hf]
    by_cases hc : ty = "class_definition"
    · rw [if_pos hc]
      rcases hid : firstIdentifier (TSNode.mk ty sr sb er eb cs) content with _ | nm
      · exact extract_list_good cs content fp
      · show GoodLines (if nm ≠ "" then
            ASTNode.mk ("class_" ++ replaceChar '/' '_' fp ++ "_" ++ nm)
              .class_ nm fp ((sr : Int) + 1) ((er : Int) + 1)
              (extractBlockChildren cs content fp)
              :: extractEntitiesList cs content fp
          else extractEntitiesList cs content fp)
        by_cases hnm : nm ≠ ""
        · rw [if_pos hnm]
          intro n hn
          have hn3 : n ∈ (ASTNode.mk
              ("class_" ++ replaceChar '/' '_' fp ++ "_" ++ nm) .class_ nm fp
              ((sr : Int) + 1) ((er : Int) + 1)
              (extractBlockChildren cs content fp))
                :: allNodesList (extractBlockChildren cs content fp)
              ++ allNodesList (extractEntitiesList cs content fp) := by
            simpa only [allNodesList, ASTNode.allNodes] using hn
          rcases List.mem_append.mp hn3 with h | h
          · rcases List.mem_cons.mp h with h1 | h1
            · rw [h1]
              constructor
              · show (1 : Int) ≤ (sr : Int) + 1
                omega
              · show (1 : Int) ≤ (er : Int) + 1
                omega
            · exact extract_block_good cs content fp n h1
          · exact extract_list_good cs content fp n h
        · rw [if_neg hnm]
          exact extract_list_good cs content fp
    · rw [if_neg hc]
      exact extract_list_good cs content fp

theorem extract_list_good (l : List TSNode) (content fp : String) :
    GoodLines (extractEntitiesList l content fp) := by
  match l with
  | [] => exact goodLines_nil
  | c :: cs =>
    rw [extractEntitiesList]
    exact goodLines_append (extract_entities_good c content fp)
      (extract_list_good cs content fp)

theorem extract_block_good (l : List TSNode) (content fp : String) :
    GoodLines (extractBlockChildren l content fp) := by
  match l with
  | [] => exact goodLines_nil
  | TSNode.mk ty sr sb er eb kids :: cs =>
    rw [extractBlockChildren]
    refine goodLines_append ?_ (extract_block_good cs content fp)
    by_cases hb : ty = "block"
    · rw [if_pos hb]
      exact extract_list_good kids content fp
    · rw [if_neg hb]
      exact goodLines_nil

end

theorem allNodesList_of_leaves : ∀ (l : List ASTNode),
    (∀ x ∈ l, x.children = []) → allNodesList l = l := by
  intro l
  induction l with
  | nil => intro _; rfl
  | cons c t ih =>
    intro h
    rcases c with ⟨nid, ty, nm, fp, ls, le, cs⟩
    have hcs : cs = [] := h _ (List.mem_cons_self _ _)
    subst hcs
    show (ASTNode.mk nid ty nm fp ls le []).allNodes ++ allNodesList t = _
    rw [allNodes_leaf, ih (fun x hx => h x (List.mem_cons_of_mem _ hx))]
    rfl

theorem simpleLineNode_good {fp : String} {lineCount i : Nat} {raw : String}
    {n : ASTNode} (hlen : i < lineCount)
    (h : simpleLineNode fp lineCount i raw = some n) :
    (1 ≤ n.line_start ∧ 1 ≤ n.line_end) ∧ n.children = [] := by
  unfold simpleLineNode at h
  by_cases h1 : listStartsWith ("def ").data (trimChars raw.data)
      ∧ listEndsWith (":").data (trimChars raw.data)
  · rw [if_pos (by
      simpa only [show (String.mk (trimChars raw.data)).data
        = trimChars raw.data from rfl] using h1)] at h
    have hn := Option.some.inj h
    rw [← hn]
    refine ⟨⟨?_, ?_⟩, rfl⟩
    · show (1 : Int) ≤ (i : Int) + 1
      omega
    · show (1 : Int) ≤ min ((i : Int) + 10) (lineCount : Int)
      apply le_min
      · omega
      · omega
  · rw [if_neg (by
      simpa only [show (String.mk (trimChars raw.data)).data
        = trimChars raw.data from rfl] using h1)] at h
    by_cases h2 : listStartsWith ("class ").data (trimChars raw.data)
        ∧ listEndsWith (":").data (trimChars raw.data)
    · rw [if_pos (by
        simpa only [show (String.mk (trimChars raw.data)).data
          = trimChars raw.data from rfl] using h2)] at h
      have hn := Option.some.inj h
      rw [← hn]
      refine ⟨⟨?_, ?_⟩, rfl⟩
      · show (1 : Int) ≤ (i : Int) + 1
        omega
      · show (1 : Int) ≤ min ((i : Int) + 20) (lineCount : Int)
        apply le_min
        · omega
        · omega
    · rw [if_neg (by
        simpa only [show (String.mk (trimChars raw.data)).data
          = trimChars raw.data from rfl] using h2)] at h
      exact absurd h (by simp)

theorem simpleChildren_good (lines : List String) (fp : String) :
    GoodLines (simpleChildren lines fp) := by
  have hleaves : ∀ x ∈ simpleChildren lines fp, x.children = [] := by
    intro x hx
    rcases List.mem_filterMap.mp hx with ⟨p, hp, heq⟩
    exact (simpleLineNode_good (List.fst_lt_of_mem_enum hp) heq).2
  intro n hn
  rw [allNodesList_of_leaves _ hleaves] at hn
  rcases List.mem_filterMap.mp hn with ⟨p, hp, heq⟩
  exact (simpleLineNode_good (List.fst_lt_of_mem_enum hp) heq).1

/-! ### Units visited by the navigator walks -/

mutual

theorem collectUnits_sub (t : ASTNode) : ∀ u ∈ collectUnits t,
    u ∈ t.allNodes ∧ (u.type.value = "function" ∨ u.type.value = "method") := by
  rcases t with ⟨nid, ty, nm, fp, ls, le, cs⟩
  intro u hu
  rw [collectUnits] at hu
  rcases List.mem_append.mp hu with h | h
  · by_cases hty : ty.value = "function" ∨ ty.value = "method"
    · rw [if_pos hty] at h
      have hu2 : u = ASTNode.mk nid ty nm fp ls le cs := by simpa using h
      rw [hu2]
      constructor
      · show ASTNode.mk nid ty nm fp ls le cs
          ∈ ASTNode.mk nid ty nm fp ls le cs :: allNodesList cs
        exact List.mem_cons_self _ _
      · exact hty
    · rw [if_neg hty] at h
      exact absurd h (List.not_mem_nil _)
  · have h2 := collectUnitsList_sub cs u h
    constructor
    · show u ∈ ASTNode.mk nid ty nm fp ls le cs :: allNodesList cs
      exact List.mem_cons_of_mem _ h2.1
    · exact h2.2

theorem collectUnitsList_sub (l : List ASTNode) : ∀ u ∈ collectUnitsList l,
    u ∈ allNodesList l ∧ (u.type.value = "function" ∨ u.type.value = "method") := by
  match l with
  | [] =>
    intro u hu
    exact absurd hu (List.not_mem_nil _)
  | c :: cs =>
    intro u hu
    rw [collectUnitsList] at hu
    rcases List.mem_append.mp hu with h | h
    · have h2 := collectUnits_sub c u h
      constructor
      · show u ∈ c.allNodes ++ allNodesList cs
        exact List.mem_append_left _ h2.1
      · exact h2.2
    · have h2 := collectUnitsList_sub cs u h
      constructor
      · show u ∈ c.allNodes ++ allNodesList cs
        exact List.mem_append_right _ h2.1
      · exact h2.2

end

theorem parse_file_units_good {hp : Bool} {ts : String → TSNode}
    {p c : String} {t : ASTNode} (h : parse_file hp ts p c = some t) :
    ∀ u ∈ collectUnits t, 1 ≤ u.line_start ∧ 1 ≤ u.line_end := by
  unfold parse_file at h
  by_cases hc : c = ""
  · rw [if_pos hc] at h
    exact absurd h (by simp)
  · rw [if_neg hc] at h
    by_cases hpy : pythonPath hp p
    · rw [if_pos hpy] at h
      have ht := Option.some.inj h
      intro u hu
      rw [← ht] at hu
      unfold parse_python_file at hu
      rw [collectUnits] at hu
      rw [if_neg (by decide)] at hu
      rw [List.nil_append] at hu
      exact extract_entities_good (ts c) c p u (collectUnitsList_sub _ u hu).1
    · rw [if_neg hpy] at h
      have ht := Option.some.inj h
      intro u hu
      rw [← ht] at hu
      unfold simple_parse_file at hu
      rw [collectUnits] at hu
      rw [if_neg (by decide)] at hu
      rw [List.nil_append] at hu
      exact simpleChildren_good (splitlines c) p u (collectUnitsList_sub _ u hu).1

theorem buildAll_ok {α : Type} (bld : ASTNode → String → Option (DiGraph α)) :
    ∀ (jobs : List (ASTNode × String)) (acc : List (String × DiGraph α)),
      (∀ j ∈ jobs, (bld j.1 j.2).isSome) →
      ∃ r, buildAll bld jobs acc = some r := by
  intro jobs
  induction jobs with
  | nil =>
    intro acc _
    exact ⟨acc, rfl⟩
  | cons j rest ih =>
    intro acc hall
    rcases j with ⟨u, c⟩
    rcases hbg : bld u c with _ | g
    · have h1 := hall (u, c) (List.mem_cons_self _ _)
      rw [hbg] at h1
      exact absurd h1 (by simp)
    · show ∃ r, (match bld u c with
        | none => none
        | some g => buildAll bld rest (dictInsert acc u.id g)) = some r
      rw [hbg]
      exact ih _ (fun j hj => hall j (List.mem_cons_of_mem _ hj))

theorem unitJobs_mem {fcs : List (String × String)} {astNodes : List ASTNode}
    {u : ASTNode} {c : String} (h : (u, c) ∈ unitJobs fcs astNodes) :
    ∃ t ∈ astNodes, u ∈ collectUnits t := by
  unfold unitJobs at h
  rcases List.mem_flatMap.mp h with ⟨t, ht, hmem⟩
  rcases List.mem_map.mp hmem with ⟨u', hu', heq⟩
  have hfst : u' = u := congrArg Prod.fst heq
  exact ⟨t, ht, hfst ▸ hu'⟩

theorem extractedPairs_mem {hp : Bool} {ts : String → TSNode}
    {fcs : List (String × String)} {pr : String × ASTNode}
    (h : pr ∈ extractedPairs hp ts fcs) :
    ∃ pc ∈ fcs, parse_file hp ts pc.1 pc.2 = some pr.2 := by
  unfold extractedPairs at h
  rcases List.mem_filterMap.mp h with ⟨pc, hpc, heq⟩
  rcases Option.map_eq_some'.mp heq with ⟨t, hmap, hpr⟩
  refine ⟨pc, hpc, ?_⟩
  rw [hmap]
  exact congrArg some (congrArg Prod.snd hpr :
    ((pc.1, t) : String × ASTNode).2 = pr.2)

theorem analyze_ok {hp : Bool} {ts : String → TSNode}
    {fcs : List (String × String)} (h1 : fcs ≠ [])
    (h2 : extractedPairs hp ts fcs ≠ []) :
    ∃ r, analyze_repository hp ts fcs = .ok r := by
  unfold analyze_repository
  rw [if_neg (by simpa [List.isEmpty_iff] using h1)]
  rw [if_neg (by simpa [List.isEmpty_iff] using h2)]
  have hgood : ∀ j ∈ unitJobs fcs ((extractedPairs hp ts fcs).map Prod.snd),
      1 ≤ j.1.line_start ∧ 1 ≤ j.1.line_end := by
    intro j hj
    rcases j with ⟨u, c⟩
    rcases unitJobs_mem hj with ⟨t, ht, hu⟩
    rcases List.mem_map.mp ht with ⟨pr, hpr, hts⟩
    rcases extractedPairs_mem hpr with ⟨pc, _, hparse⟩
    exact parse_file_units_good (hts ▸ hparse) u hu
  have hcfg : ∀ j ∈ unitJobs fcs ((extractedPairs hp ts fcs).map Prod.snd),
      (CFGBuilder.build j.1 j.2).isSome := by
    intro j hj
    rw [cfg_build_eq j.1 j.2 (hgood j hj).1 (hgood j hj).2]
    rfl
  have hpdg : ∀ j ∈ unitJobs fcs ((extractedPairs hp ts fcs).map Prod.snd),
      (PDGBuilder.build j.1 j.2).isSome := by
    intro j hj
    rw [pdg_build_eq j.1 j.2 (hgood j hj).1]
    rfl
  rcases buildAll_ok CFGBuilder.build _ [] hcfg with ⟨cfgs, hcfgs⟩
  rcases buildAll_ok PDGBuilder.build _ [] hpdg with ⟨pdgs, hpdgs⟩
  rw [hcfgs, hpdgs]
  exact ⟨_, rfl⟩

/-! ### Characterizing the HPG walk -/

mutual

theorem hpg_node_props (n : ASTNode) (g : DiGraph HPGAttrs) (p : Option String)
    (hp : ∀ pp, p = some pp → pp ≠ "" → (nodeLookup g pp).isSome) :
    (∀ id, (nodeLookup g id).isSome →
      (nodeLookup (add_ast_node_to_graph n g p) id).isSome)
    ∧ (∀ id a, nodeLookup (add_ast_node_to_graph n g p) id = some a →
        nodeLookup g id = some a
          ∨ ∃ m ∈ n.allNodes, m.id = id ∧ a = hpgAttrsOf m)
    ∧ (∀ m ∈ n.allNodes, (nodeLookup (add_ast_node_to_graph n g p) m.id).isSome)
    ∧ (∀ e ∈ (add_ast_node_to_graph n g p).edges,
        e ∈ g.edges ∨ (e.2.2 = "contains"
          ∧ ((∃ pp, p = some pp ∧ e.1 = pp ∧ e.2.1 = n.id)
              ∨ (e.1, e.2.1) ∈ n.treeEdges)))
    ∧ (∀ e ∈ g.edges, e.2.2 = "contains" →
        e ∈ (add_ast_node_to_graph n g p).edges)
    ∧ (∀ pq ∈ n.treeEdges, pq.1 ≠ "" →
        (pq.1, pq.2, "contains") ∈ (add_ast_node_to_graph n g p).edges)
    ∧ (∀ pp, p = some pp → pp ≠ "" →
        (pp, n.id, "contains") ∈ (add_ast_node_to_graph n g p).edges) := by
  rcases n with ⟨nid, ty, nm, fp, ls, le, cs⟩
  have hg1self : nodeLookup (addNode g nid
      (hpgAttrsOf (ASTNode.mk nid ty nm fp ls le cs))) nid
      = some (hpgAttrsOf (ASTNode.mk nid ty nm fp ls le cs)) :=
    nodeLookup_addNode_self _ _ _
  have hg1mono : ∀ id, (nodeLookup g id).isSome →
      (nodeLookup (addNode g nid
        (hpgAttrsOf (ASTNode.mk nid ty nm fp ls le cs))) id).isSome :=
    fun id h => nodeLookup_isSome_addNode g nid _ h
  have hg1edges : (addNode g nid
      (hpgAttrsOf (ASTNode.mk nid ty nm fp ls le cs))).edges = g.edges :=
    addNode_edges _ _ _
  obtain ⟨g2, hg2eq, hg2lk, hg2esub, hg2esup, hg2par⟩ :
      ∃ g2 : DiGraph HPGAttrs,
        (add_ast_node_to_graph (ASTNode.mk nid ty nm fp ls le cs) g p
          = addChildrenToGraph cs g2 nid)
        ∧ (∀ id, nodeLookup g2 id = nodeLookup (addNode g nid
            (hpgAttrsOf (ASTNode.mk nid ty nm fp ls le cs))) id)
        ∧ (∀ e ∈ g2.edges, e ∈ g.edges ∨ (e.2.2 = "contains"
            ∧ ∃ pp, p = some pp ∧ e.1 = pp ∧ e.2.1 = nid))
        ∧ (∀ e ∈ g.edges, e.2.2 = "contains" → e ∈ g2.edges)
        ∧ (∀ pp, p = some pp → pp ≠ "" → (pp, nid, "contains") ∈ g2.edges) := by
    rcases p with _ | pp
    · refine ⟨addNode g nid (hpgAttrsOf (ASTNode.mk nid ty nm fp ls le cs)),
        rfl, fun id => rfl, ?_, ?_, ?_⟩
      · intro e he
        rw [hg1edges] at he
        exact Or.inl he
      · intro e he _
        rw [hg1edges]
        exact he
      · intro pp hpp
        exact absurd hpp (by simp)
    · by_cases hpp : pp ≠ ""
      · have hppmem : pp ∈ nodeIds (addNode g nid
            (hpgAttrsOf (ASTNode.mk nid ty nm fp ls le cs))) :=
          mem_nodeIds_iff_isSome.mpr (hg1mono pp (hp pp rfl hpp))
      -- the freshly inserted node is always present
        have hnidmem : nid ∈ nodeIds (addNode g nid
            (hpgAttrsOf (ASTNode.mk nid ty nm fp ls le cs))) :=
          mem_nodeIds_iff_isSome.mpr (by rw [hg1self]; rfl)
        refine ⟨addEdge (addNode g nid
            (hpgAttrsOf (ASTNode.mk nid ty nm fp ls le cs))) pp nid ("contains"),
          ?_, ?_, ?_, ?_, ?_⟩
        · show addChildrenToGraph cs (if pp ≠ "" then _ else _) nid = _
          rw [if_pos hpp]
        · intro id
          exact addEdge_nodeLookup_of_mem _ id hppmem hnidmem
        · intro e he
          rcases addEdge_edges_mem_or hppmem hnidmem he with h | h
          · rw [hg1edges] at h
            exact Or.inl h
          · refine Or.inr ⟨by rw [h], pp, rfl, by rw [h], by rw [h]⟩
        · intro e he hty2
          refine mem_addEdge_of_mem hppmem hnidmem ?_ hty2
          rw [hg1edges]
          exact he
        · intro pp2 hpp2 _
          have : pp2 = pp := (Option.some.inj hpp2).symm
          rw [this]
          exact mem_addEdge_self _ hppmem hnidmem
      · refine ⟨addNode g nid (hpgAttrsOf (ASTNode.mk nid ty nm fp ls le cs)),
          ?_, fun id => rfl, ?_, ?_, ?_⟩
        · show addChildrenToGraph cs (if pp ≠ "" then _ else _) nid = _
          rw [if_neg hpp]
        · intro e he
          rw [hg1edges] at he
          exact Or.inl he
        · intro e he _
          rw [hg1edges]
          exact he
        · intro pp2 hpp2 hne
          have : pp2 = pp := (Option.some.inj hpp2).symm
          rw [this] at hne
          exact absurd hne hpp
  have hg2self : (nodeLookup g2 nid).isSome := by
    rw [hg2lk, hg1self]
    rfl
  have L := hpg_list_props cs g2 nid (fun _ => hg2self)
  rw [hg2eq]
  refine ⟨?_, ?_, ?_, ?_, ?_, ?_, ?_⟩
  · intro id h
    exact L.1 id (by rw [hg2lk]; exact hg1mono id h)
  · intro id a h
    rcases L.2.1 id a h with h2 | h2
    · rw [hg2lk] at h2
      by_cases hid : id = nid
      · rw [hid, hg1self] at h2
        refine Or.inr ⟨ASTNode.mk nid ty nm fp ls le cs, ?_, hid.symm,
          (Option.some.inj h2).symm⟩
        show _ ∈ ASTNode.mk nid ty nm fp ls le cs :: allNodesList cs
        exact List.mem_cons_self _ _
      · rw [nodeLookup_addNode_ne g _ (fun hc => hid hc)] at h2
        exact Or.inl h2
    · rcases h2 with ⟨m, hm, hmid, hma⟩
      refine Or.inr ⟨m, ?_, hmid, hma⟩
      show _ ∈ ASTNode.mk nid ty nm fp ls le cs :: allNodesList cs
      exact List.mem_cons_of_mem _ hm
  · intro m hm
    have hm2 : m ∈ ASTNode.mk nid ty nm fp ls le cs :: allNodesList cs := hm
    rcases List.mem_cons.mp hm2 with h | h
    · rw [h]
      exact L.1 nid hg2self
    · exact L.2.2.1 m h
  · intro e he
    rcases L.2.2.2.1 e he with h | h
    · rcases hg2esub e h with h2 | h2
      · exact Or.inl h2
      · refine Or.inr ⟨h2.1, Or.inl ?_⟩
        rcases h2.2 with ⟨pp, hpp, h3, h4⟩
        exact ⟨pp, hpp, h3, h4⟩
    · refine Or.inr ⟨h.1, Or.inr ?_⟩
      show (e.1, e.2.1) ∈ cs.map (fun c => (nid, c.id)) ++ treeEdgesList cs
      rcases h.2 with ⟨c, hc, h3, h4⟩ | h3
      · refine List.mem_append_left _ (List.mem_map.mpr ⟨c, hc, ?_⟩)
        rw [← h3, ← h4]
      · exact List.mem_append_right _ h3
  · intro e he hty2
    exact L.2.2.2.2.1 e (hg2esup e he hty2) hty2
  · intro pq hpq hne
    have hpq2 : pq ∈ cs.map (fun c => (nid, c.id)) ++ treeEdgesList cs := hpq
    rcases List.mem_append.mp hpq2 with h | h
    · rcases List.mem_map.mp h with ⟨c, hc, hceq⟩
      rw [← hceq]
      rw [← hceq] at hne
      exact L.2.2.2.2.2.2 c hc hne
    · exact L.2.2.2.2.2.1 pq h hne
  · intro pp hpp hne
    exact L.2.2.2.2.1 _ (hg2par pp hpp hne) rfl

theorem hpg_list_props (l : List ASTNode) (g : DiGraph HPGAttrs) (pid : String)
    (hp : pid ≠ "" → (nodeLookup g pid).isSome) :
    (∀ id, (nodeLookup g id).isSome →
      (nodeLookup (addChildrenToGraph l g pid) id).isSome)
    ∧ (∀ id a, nodeLookup (addChildrenToGraph l g pid) id = some a →
        nodeLookup g id = some a
          ∨ ∃ m ∈ allNodesList l, m.id = id ∧ a = hpgAttrsOf m)
    ∧ (∀ m ∈ allNodesList l, (nodeLookup (addChildrenToGraph l g pid) m.id).isSome)
    ∧ (∀ e ∈ (addChildrenToGraph l g pid).edges,
        e ∈ g.edges ∨ (e.2.2 = "contains"
          ∧ ((∃ c ∈ l, e.1 = pid ∧ e.2.1 = ASTNode.id c)
              ∨ (e.1, e.2.1) ∈ treeEdgesList l)))
    ∧ (∀ e ∈ g.edges, e.2.2 = "contains" →
        e ∈ (addChildrenToGraph l g pid).edges)
    ∧ (∀ pq ∈ treeEdgesList l, pq.1 ≠ "" →
        (pq.1, pq.2, "contains") ∈ (addChildrenToGraph l g pid).edges)
    ∧ (∀ c ∈ l, pid ≠ "" →
        (pid, ASTNode.id c, "contains") ∈ (addChildrenToGraph l g pid).edges) := by
  match l with
  | [] =>
    refine ⟨fun id h => h, fun id a h => Or.inl h, ?_, fun e he => Or.inl he,
      fun e he _ => he, ?_, ?_⟩
    · intro m hm
      exact absurd hm (List.not_mem_nil _)
    · intro pq hpq
      exact absurd hpq (List.not_mem_nil _)
    · intro c hc
      exact absurd hc (List.not_mem_nil _)
  | c :: cs =>
    have hp2 : ∀ pp, some pid = some pp → pp ≠ "" → (nodeLookup g pp).isSome := by
      intro pp hpp hne
      rw [← Option.some.inj hpp]
      exact hp ((Option.some.inj hpp) ▸ hne)
    have N := hpg_node_props c g (some pid) hp2
    have hp3 : pid ≠ "" →
        (nodeLookup (add_ast_node_to_graph c g (some pid)) pid).isSome :=
      fun hne => N.1 pid (hp hne)
    have L := hpg_list_props cs (add_ast_node_to_graph c g (some pid)) pid hp3
    show _ ∧ _ ∧ _ ∧ _ ∧ _ ∧ _ ∧ _
    refine ⟨?_, ?_, ?_, ?_, ?_, ?_, ?_⟩
    · intro id h
      exact L.1 id (N.1 id h)
    · intro id a h
      rcases L.2.1 id a h with h2 | h2
      · rcases N.2.1 id a h2 with h3 | h3
        · exact Or.inl h3
        · rcases h3 with ⟨m, hm, hmid, hma⟩
          refine Or.inr ⟨m, ?_, hmid, hma⟩
          rw [show allNodesList (c :: cs) = c.allNodes ++ allNodesList cs
            from rfl]
          exact List.mem_append_left _ hm
      · rcases h2 with ⟨m, hm, hmid, hma⟩
        refine Or.inr ⟨m, ?_, hmid, hma⟩
        rw [show allNodesList (c :: cs) = c.allNodes ++ allNodesList cs
          from rfl]
        exact List.mem_append_right _ hm
    · intro m hm
      rcases List.mem_append.mp (show m ∈ c.allNodes ++ allNodesList cs
          from hm) with h | h
      · exact L.1 m.id (N.2.2.1 m h)
      · exact L.2.2.1 m h
    · intro e he
      rcases L.2.2.2.1 e he with h | h
      · rcases N.2.2.2.1 e h with h2 | h2
        · exact Or.inl h2
        · refine Or.inr ⟨h2.1, ?_⟩
          rcases h2.2 with ⟨pp, hpp, h3, h4⟩ | h3
          · exact Or.inl ⟨c, List.mem_cons_self _ _,
              by rw [h3, Option.some.inj hpp], h4⟩
          · refine Or.inr ?_
            rw [show treeEdgesList (c :: cs)
              = c.treeEdges ++ treeEdgesList cs from rfl]
            exact List.mem_append_left _ h3
      · refine Or.inr ⟨h.1, ?_⟩
        rcases h.2 with ⟨c2, hc2, h3, h4⟩ | h3
        · exact Or.inl ⟨c2, List.mem_cons_of_mem _ hc2, h3, h4⟩
        · refine Or.inr ?_
          rw [show treeEdgesList (c :: cs)
            = c.treeEdges ++ treeEdgesList cs from rfl]
          exact List.mem_append_right _ h3
    · intro e he hty2
      exact L.2.2.2.2.1 e (N.2.2.2.2.1 e he hty2) hty2
    · intro pq hpq hne
      rcases List.mem_append.mp (show pq ∈ c.treeEdges ++ treeEdgesList cs
          from hpq) with h | h
      · exact L.2.2.2.2.1 _ (N.2.2.2.2.2.1 pq h hne) rfl
      · exact L.2.2.2.2.2.1 pq h hne
    · intro c2 hc2 hne
      rcases List.mem_cons.mp hc2 with h | h
      · rw [h]
        exact L.2.2.2.2.1 _ (N.2.2.2.2.2.2 pid rfl hne) rfl
      · exact L.2.2.2.2.2.2 c2 h hne

end

theorem hpg_fold_props : ∀ (f : List ASTNode) (g : DiGraph HPGAttrs),
    (∀ id, (nodeLookup g id).isSome →
      (nodeLookup (f.foldl (fun acc n => add_ast_node_to_graph n acc none) g) id).isSome)
    ∧ (∀ id a,
        nodeLookup (f.foldl (fun acc n => add_ast_node_to_graph n acc none) g) id
          = some a →
        nodeLookup g id = some a
          ∨ ∃ m ∈ allNodesList f, m.id = id ∧ a = hpgAttrsOf m)
    ∧ (∀ m ∈ allNodesList f,
        (nodeLookup (f.foldl (fun acc n => add_ast_node_to_graph n acc none) g)
          m.id).isSome)
    ∧ (∀ e ∈ (f.foldl (fun acc n => add_ast_node_to_graph n acc none) g).edges,
        e ∈ g.edges
          ∨ (e.2.2 = "contains" ∧ (e.1, e.2.1) ∈ treeEdgesList f))
    ∧ (∀ e ∈ g.edges, e.2.2 = "contains" →
        e ∈ (f.foldl (fun acc n => add_ast_node_to_graph n acc none) g).edges)
    ∧ (∀ pq ∈ treeEdgesList f, pq.1 ≠ "" →
        (pq.1, pq.2, "contains")
          ∈ (f.foldl (fun acc n => add_ast_node_to_graph n acc none) g).edges) := by
  intro f
  induction f with
  | nil =>
    intro g
    refine ⟨fun id h => h, fun id a h => Or.inl h, ?_, fun e he => Or.inl he,
      fun e he _ => he, ?_⟩
    · intro m hm
      exact absurd hm (List.not_mem_nil _)
    · intro pq hpq
      exact absurd hpq (List.not_mem_nil _)
  | cons n rest ih =>
    intro g
    have N := hpg_node_props n g none (fun pp hpp => absurd hpp (by simp))
    have L := ih (add_ast_node_to_graph n g none)
    show (∀ id, (nodeLookup g id).isSome → _) ∧ _
    refine ⟨?_, ?_, ?_, ?_, ?_, ?_⟩
    · intro id h
      exact L.1 id (N.1 id h)
    · intro id a h
      rcases L.2.1 id a h with h2 | h2
      · rcases N.2.1 id a h2 with h3 | h3
        · exact Or.inl h3
        · rcases h3 with ⟨m, hm, hmid, hma⟩
          refine Or.inr ⟨m, ?_, hmid, hma⟩
          rw [show allNodesList (n :: rest) = n.allNodes ++ allNodesList rest
            from rfl]
          exact List.mem_append_left _ hm
      · rcases h2 with ⟨m, hm, hmid, hma⟩
        refine Or.inr ⟨m, ?_, hmid, hma⟩
        rw [show allNodesList (n :: rest) = n.allNodes ++ allNodesList rest
          from rfl]
        exact List.mem_append_right _ hm
    · intro m hm
      rcases List.mem_append.mp (show m ∈ n.allNodes ++ allNodesList rest
          from hm) with h | h
      · exact L.1 m.id (N.2.2.1 m h)
      · exact L.2.2.1 m h
    · intro e he
      rcases L.2.2.2.1 e he with h | h
      · rcases N.2.2.2.1 e h with h2 | h2
        · exact Or.inl h2
        · refine Or.inr ⟨h2.1, ?_⟩
          rcases h2.2 with ⟨pp, hpp, _, _⟩ | h3
          · exact absurd hpp (by simp)
          · rw [show treeEdgesList (n :: rest)
              = n.treeEdges ++ treeEdgesList rest from rfl]
            exact List.mem_append_left _ h3
      · refine Or.inr ⟨h.1, ?_⟩
        rw [show treeEdgesList (n :: rest)
          = n.treeEdges ++ treeEdgesList rest from rfl]
        exact List.mem_append_right _ h.2
    · intro e he hty2
      exact L.2.2.2.2.1 e (N.2.2.2.2.1 e he hty2) hty2
    · intro pq hpq hne
      rcases List.mem_append.mp (show pq ∈ n.treeEdges ++ treeEdgesList rest
          from hpq) with h | h
      · exact L.2.2.2.2.1 _ (N.2.2.2.2.2.1 pq h hne) rfl
      · exact L.2.2.2.2.2 pq h hne

theorem nodeLookup_empty {α : Type} (id : String) :
    nodeLookup (DiGraph.empty : DiGraph α) id = none := rfl

/-! ## Claim theorems -/

/-- Claim C1: the containment invariant claimed by the spec FAILS on the
code — and the spec (§4.2: methods become "children of the class node, not
the file node") is the clear intent, so this is a code bug.  For the sample
class body with one method, `_extract_python_entities` attaches the method
to the class node inside the `class_definition` branch, but its trailing
unconditional recursion then walks the class's `block` child again with the
file as parent, so the method node `func_a.py_m` is created twice with the
same id and receives two incoming "contains" edges: one from
`class_a.py_C` and one from `file_a.py`. -/
theorem C1_containment_violation :
    incomingContains
      (HPGBuilder.build
        ((parse_file true tsSampleClass ("a.py") sampleClassSource).toList))
      ("func_a.py_m") = 2
    ∧ ("class_a.py_C", "func_a.py_m", "contains")
        ∈ (HPGBuilder.build
            ((parse_file true tsSampleClass ("a.py") sampleClassSource).toList)).edges
    ∧ ("file_a.py", "func_a.py_m", "contains")
        ∈ (HPGBuilder.build
            ((parse_file true tsSampleClass ("a.py") sampleClassSource).toList)).edges := by
  refine ⟨?_, ?_, ?_⟩ <;> decide

/-- Claim C2 counterexample: the claim quantifies over ANY
`line_start`/`line_end`; at a unit with `line_start = line_end = 0` and
empty source the builder does not return the claimed 2-node/1-edge graph at
all — the snippet guard `0 <= len(lines)` passes and `lines[-1]` raises
`IndexError` on the empty line list, modelled as `none`. -/
theorem C2_counterexample : CFGBuilder.build zeroLineUnit "" = none := by
  decide

/-- Claim C2 (amended): for every unit whose line numbers respect the
1-based data model (`1 ≤ line_start`, `1 ≤ line_end`) and every source
string, the CFG has exactly 2 nodes and 1 edge: an entry node with
`line_number = line_start`, an exit node with `line_number = line_end`,
each snippet being that source line when in range and `""` otherwise, and
one "normal" edge entry→exit. -/
theorem C2_amended (u : ASTNode) (content : String) (h1 : 1 ≤ u.line_start)
    (h2 : 1 ≤ u.line_end) :
    ∃ g, CFGBuilder.build u content = some g
      ∧ g.nodes.length = 2 ∧ g.edges.length = 1
      ∧ nodeLookup g ("entry_" ++ u.id)
          = some ⟨"entry_" ++ u.id, "entry", u.id, u.line_start,
              lineAt (splitlines content) u.line_start⟩
      ∧ nodeLookup g ("exit_" ++ u.id)
          = some ⟨"exit_" ++ u.id, "exit", u.id, u.line_end,
              lineAt (splitlines content) u.line_end⟩
      ∧ g.edges = [("entry_" ++ u.id, "exit_" ++ u.id, "normal")] := by
  refine ⟨_, cfg_build_eq u content h1 h2, rfl, rfl, ?_, ?_, rfl⟩
  · unfold nodeLookup
    rw [List.find?_cons_of_pos _ (by simp)]
    rfl
  · unfold nodeLookup
    rw [List.find?_cons_of_neg _ (by
      rw [show (("entry_" ++ u.id) == ("exit_" ++ u.id)) = false from
        beq_eq_false_iff_ne.mpr (entryId_ne_exitId u.id)]
      exact Bool.false_ne_true)]
    rw [List.find?_cons_of_pos _ (by simp)]
    rfl

/-- Witness for C2 (amended) at a concrete two-line unit and source. -/
theorem C2_witness :
    (1 : Int) ≤ twoLineUnit.line_start ∧ (1 : Int) ≤ twoLineUnit.line_end
    ∧ (∃ g, CFGBuilder.build twoLineUnit ("a\nb") = some g
        ∧ g.nodes.length = 2 ∧ g.edges.length = 1
        ∧ nodeLookup g ("entry_" ++ twoLineUnit.id)
            = some ⟨"entry_" ++ twoLineUnit.id, "entry", twoLineUnit.id,
                twoLineUnit.line_start,
                lineAt (splitlines ("a\nb")) twoLineUnit.line_start⟩
        ∧ nodeLookup g ("exit_" ++ twoLineUnit.id)
            = some ⟨"exit_" ++ twoLineUnit.id, "exit", twoLineUnit.id,
                twoLineUnit.line_end,
                lineAt (splitlines ("a\nb")) twoLineUnit.line_end⟩
        ∧ g.edges = [("entry_" ++ twoLineUnit.id, "exit_" ++ twoLineUnit.id,
            "normal")]) :=
  ⟨by decide, by decide, C2_amended twoLineUnit ("a\nb") (by decide) (by decide)⟩

/-- Claim C3 counterexample: with source `"=1"` and a unit spanning line 1,
the single line contains an assignment operator and does not start with the
comment marker, so the claim says it becomes a dependency node (with
variable `""`); but the code's extra non-empty-left-hand-side guard
(`if var_name`) drops it, and the PDG has zero nodes. -/
theorem C3_counterexample :
    PDGBuilder.build oneLineUnit ("=1") = some ⟨[], []⟩ := by
  decide

/-- Claim C3 (amended): for every unit with 1-based `line_start` and every
source, the PDG's nodes are exactly the lines in
`[line_start, line_end]` (in scan order) whose stripped text contains `'='`,
does not start with `'#'`, and has a *non-empty* stripped left-hand side;
the node's variable is that left-hand side and its scope the unit's name;
the edges chain node `i` to node `i+1` with kind "data_flow", so `k` nodes
give exactly `max(k-1, 0)` edges (`k - 1` in truncated `Nat` subtraction). -/
theorem C3_amended (u : ASTNode) (content : String) (h : 1 ≤ u.line_start) :
    ∃ g, PDGBuilder.build u content = some g
      ∧ g.nodes = (pdgCandidates (splitlines content) u.line_start u.line_end).enum.map
          (fun p => (pdgNodeId u.id p.1,
            ⟨pdgNodeId u.id p.1, p.2.1, p.2.2, u.name⟩))
      ∧ g.edges = (List.range
          ((pdgCandidates (splitlines content) u.line_start u.line_end).length - 1)).map
          (fun i => (pdgNodeId u.id i, pdgNodeId u.id (i + 1), "data_flow"))
      ∧ g.nodes.length
          = (pdgCandidates (splitlines content) u.line_start u.line_end).length
      ∧ g.edges.length
          = (pdgCandidates (splitlines content) u.line_start u.line_end).length - 1 := by
  refine ⟨_, pdg_build_eq u content h, rfl, rfl, ?_, ?_⟩
  · rw [List.length_map, List.enum_length]
  · rw [List.length_map, List.length_range]

/-- Witness for C3 (amended) at a concrete two-assignment unit. -/
theorem C3_witness :
    (1 : Int) ≤ twoLineUnit.line_start
    ∧ (∃ g, PDGBuilder.build twoLineUnit ("x = 1\ny = 2") = some g
        ∧ g.nodes = (pdgCandidates (splitlines ("x = 1\ny = 2"))
            twoLineUnit.line_start twoLineUnit.line_end).enum.map
            (fun p => (pdgNodeId twoLineUnit.id p.1,
              ⟨pdgNodeId twoLineUnit.id p.1, p.2.1, p.2.2, twoLineUnit.name⟩))
        ∧ g.edges = (List.range
            ((pdgCandidates (splitlines ("x = 1\ny = 2"))
              twoLineUnit.line_start twoLineUnit.line_end).length - 1)).map
            (fun i => (pdgNodeId twoLineUnit.id i,
              pdgNodeId twoLineUnit.id (i + 1), "data_flow"))
        ∧ g.nodes.length = (pdgCandidates (splitlines ("x = 1\ny = 2"))
            twoLineUnit.line_start twoLineUnit.line_end).length
        ∧ g.edges.length = (pdgCandidates (splitlines ("x = 1\ny = 2"))
            twoLineUnit.line_start twoLineUnit.line_end).length - 1) :=
  ⟨by decide, C3_amended twoLineUnit ("x = 1\ny = 2") (by decide)⟩

/-- Claim C4: `analyze_repository` fails with the empty-input error exactly
when ingestion yields an empty file-content map, fails with the
no-parseable-content error exactly when the map is non-empty but extraction
yields zero trees, and in all other cases returns an `AnalysisReport`. -/
theorem C4_analyze_errors (hp : Bool) (ts : String → TSNode)
    (fcs : List (String × String)) :
    (analyze_repository hp ts fcs = .error .emptyInput ↔ fcs = [])
    ∧ (analyze_repository hp ts fcs = .error .noParseableContent
        ↔ (fcs ≠ [] ∧ extractedPairs hp ts fcs = []))
    ∧ (fcs ≠ [] → extractedPairs hp ts fcs ≠ [] →
        ∃ r, analyze_repository hp ts fcs = .ok r) := by
  refine ⟨?_, ?_, fun h1 h2 => analyze_ok h1 h2⟩
  · constructor
    · intro h
      by_contra hne
      unfold analyze_repository at h
      rw [if_neg (by simpa [List.isEmpty_iff] using hne)] at h
      by_cases h2 : extractedPairs hp ts fcs = []
      · rw [if_pos (by simpa [List.isEmpty_iff] using h2)] at h
        exact absurd (Except.error.inj h) (by decide)
      · rw [if_neg (by simpa [List.isEmpty_iff] using h2)] at h
        rcases hb1 : buildAll CFGBuilder.build
            (unitJobs fcs ((extractedPairs hp ts fcs).map Prod.snd)) [] with _ | cfgs
        · rw [hb1] at h
          exact absurd (Except.error.inj h) (by decide)
        · rw [hb1] at h
          rcases hb2 : buildAll PDGBuilder.build
              (unitJobs fcs ((extractedPairs hp ts fcs).map Prod.snd)) [] with _ | pdgs
          · rw [hb2] at h
            exact absurd (Except.error.inj h) (by decide)
          · rw [hb2] at h
            exact absurd h (by simp)
    · intro h
      rw [h]
      rfl
  · constructor
    · intro h
      by_cases h1 : fcs = []
      · rw [h1] at h
        exact absurd (Except.error.inj h) (by decide)
      · refine ⟨h1, ?_⟩
        by_contra h2
        unfold analyze_repository at h
        rw [if_neg (by simpa [List.isEmpty_iff] using h1)] at h
        rw [if_neg (by simpa [List.isEmpty_iff] using h2)] at h
        rcases hb1 : buildAll CFGBuilder.build
            (unitJobs fcs ((extractedPairs hp ts fcs).map Prod.snd)) [] with _ | cfgs
        · rw [hb1] at h
          exact absurd (Except.error.inj h) (by decide)
        · rw [hb1] at h
          rcases hb2 : buildAll PDGBuilder.build
              (unitJobs fcs ((extractedPairs hp ts fcs).map Prod.snd)) [] with _ | pdgs
          · rw [hb2] at h
            exact absurd (Except.error.inj h) (by decide)
          · rw [hb2] at h
            exact absurd h (by simp)
    · intro h
      unfold analyze_repository
      rw [if_neg (by simpa [List.isEmpty_iff] using h.1)]
      rw [if_pos (by simpa [List.isEmpty_iff] using h.2)]

/-- Witness for C4's success case on a concrete one-file input. -/
theorem C4_witness :
    (([("a.txt", "x")] : List (String × String)) ≠ [])
    ∧ extractedPairs false tsEmpty [("a.txt", "x")] ≠ []
    ∧ (∃ r, analyze_repository false tsEmpty [("a.txt", "x")] = .ok r) := by
  have h1 : (([("a.txt", "x")] : List (String × String)) ≠ []) := by decide
  have h2 : extractedPairs false tsEmpty [("a.txt", "x")] ≠ [] :=
    fun hc => absurd (congrArg List.length hc) (by decide)
  exact ⟨h1, h2, (C4_analyze_errors false tsEmpty [("a.txt", "x")]).2.2 h1 h2⟩

/-- Claim C5 counterexample: the claim says extraction returns a root node
of kind File; the code's kind vocabulary (`NodeType`) has no File member at
all, and the root's kind is `"class"` — the code comments "Using CLASS as
file container". -/
theorem C5_counterexample :
    (parse_file false tsEmpty ("a.txt") ("x")).map (fun t => (t.type).value)
      = some ("class") := by
  decide

/-- Claim C5 (amended): `parse_file` returns `none` exactly when the
content is empty; otherwise it returns a root node (the file container,
kind Class in this code) with `line_start = 1` and `line_end` the number of
lines of the content — on both the tree-sitter path and the line-heuristic
fallback. -/
theorem C5_amended (hp : Bool) (ts : String → TSNode) (p c : String) :
    (parse_file hp ts p c = none ↔ c = "")
    ∧ (∀ t, parse_file hp ts p c = some t →
        t.line_start = 1 ∧ t.line_end = ((splitlines c).length : Int)
          ∧ t.type = NodeType.class_) := by
  constructor
  · constructor
    · intro h
      by_contra hc
      unfold parse_file at h
      rw [if_neg hc] at h
      by_cases hpy : pythonPath hp p
      · rw [if_pos hpy] at h
        exact absurd h (by simp)
      · rw [if_neg hpy] at h
        exact absurd h (by simp)
    · intro h
      unfold parse_file
      rw [if_pos h]
  · intro t ht
    unfold parse_file at ht
    by_cases hc : c = ""
    · rw [if_pos hc] at ht
      exact absurd ht (by simp)
    · rw [if_neg hc] at ht
      by_cases hpy : pythonPath hp p
      · rw [if_pos hpy] at ht
        rw [← Option.some.inj ht]
        exact ⟨rfl, rfl, rfl⟩
      · rw [if_neg hpy] at ht
        rw [← Option.some.inj ht]
        exact ⟨rfl, rfl, rfl⟩

/-- Witness for C5 (amended): on a concrete two-line non-Python file the
extractor returns a root spanning lines 1..2 of the file-container kind. -/
theorem C5_witness :
    (parse_file false tsEmpty ("b.txt") ("x\ny") ≠ none)
    ∧ ((simple_parse_file ("x\ny") ("b.txt")).line_start = 1
        ∧ (simple_parse_file ("x\ny") ("b.txt")).line_end
            = ((splitlines ("x\ny")).length : Int)
        ∧ (simple_parse_file ("x\ny") ("b.txt")).type = NodeType.class_) := by
  constructor
  · exact fun hn =>
      absurd ((C5_amended false tsEmpty ("b.txt") ("x\ny")).1.mp hn) (by decide)
  · exact (C5_amended false tsEmpty ("b.txt") ("x\ny")).2
      (simple_parse_file ("x\ny") ("b.txt")) (by rfl)

/-- Claim C6: within one queue lifetime, enqueuing a path any positive
number of times leaves exactly one task for consumers; enqueuing an
already-seen path is an identity (no-op), and no queue operation
(`add_file`, `get_file`, `task_done`) ever shrinks the seen-set — so a
path seen in an earlier session is silently dropped unless the queue object
is reconstructed. -/
theorem C6_queue_dedup :
    (∀ (q : FileQueue) (p : String), p ∈ q.processed_files → q.add_file p = q)
    ∧ (∀ (w : Nat) (p : String) (n : Nat), 1 ≤ n →
        countTasks ((fun s : FileQueue => s.add_file p)^[n] (FileQueue.new w)) p
          = 1)
    ∧ (∀ (q : FileQueue) (p : String),
        q.processed_files ⊆ (q.add_file p).processed_files)
    ∧ (∀ (q : FileQueue) (t : FileTask) (q' : FileQueue),
        q.get_file = some (t, q') → q'.processed_files = q.processed_files)
    ∧ (∀ (q q' : FileQueue), q.task_done = some q' →
        q'.processed_files = q.processed_files) := by
  refine ⟨fun q p h => add_file_seen h, ?_, fun q p => add_file_processed_grow q p,
    fun q t q' h => get_file_processed h, fun q q' h => task_done_processed h⟩
  intro w p n hn
  rw [iterate_add_file _ _ n hn]
  have hfresh : p ∉ (FileQueue.new w).processed_files := List.not_mem_nil _
  rw [countTasks_add_fresh hfresh]
  rfl

/-- Witness for C6: three enqueues of the same path on a fresh queue leave
exactly one task. -/
theorem C6_witness :
    countTasks ((fun s : FileQueue => s.add_file ("a"))^[3] (FileQueue.new 4))
      ("a") = 1 :=
  C6_queue_dedup.2.1 4 ("a") 3 (by decide)

/-- Claim C7: along any successfully executed trace of queue operations
from a fresh queue, `wait_completion` (`queue.join`) unblocks exactly when
the number of done-markings equals the number of successful (non-deduped)
enqueues — never before every enqueued task has been marked done, and
always once the counts match. -/
theorem C7_drainage (ops : List QueueOp) (q' : FileQueue)
    (h : runOps (FileQueue.new 4) ops = some q') :
    q'.drained ↔ doneCount ops = succEnq (FileQueue.new 4) ops := by
  have hinv := runOps_unfinished ops _ _ h
  have h0 : (FileQueue.new 4).unfinished = 0 := rfl
  unfold FileQueue.drained
  omega

/-- Witness for C7: the sample trace (duplicate add, one get, one done)
ends drained with matching counts. -/
theorem C7_witness :
    sampleOpsEnd.drained
      ↔ doneCount sampleOps = succEnq (FileQueue.new 4) sampleOps :=
  C7_drainage sampleOps sampleOpsEnd (by decide)

/-- Claim C8: extraction never raises for non-empty content (it always
returns a root), and when no construct is recognized on the taken path it
degrades to the file root with no children. -/
theorem C8_extraction_total (hp : Bool) (ts : String → TSNode) (p c : String)
    (h : c ≠ "") :
    ∃ t, parse_file hp ts p c = some t
      ∧ (pythonPath hp p = true →
          extract_python_entities (ts c) c p = [] → t.children = [])
      ∧ (pythonPath hp p = false →
          simpleChildren (splitlines c) p = [] → t.children = []) := by
  unfold parse_file
  rw [if_neg h]
  by_cases hpy : pythonPath hp p
  · rw [if_pos hpy]
    refine ⟨_, rfl, ?_, ?_⟩
    · intro _ hext
      show extract_python_entities (ts c) c p = []
      exact hext
    · intro hfalse
      rw [hfalse] at hpy
      exact absurd hpy (by decide)
  · rw [if_neg hpy]
    refine ⟨_, rfl, ?_, ?_⟩
    · intro htrue
      exact absurd htrue hpy
    · intro _ hext
      show simpleChildren (splitlines c) p = []
      exact hext

/-- Witness for C8 at concrete non-empty content with no recognizable
construct. -/
theorem C8_witness :
    (("x" : String) ≠ "")
    ∧ (∃ t, parse_file false tsEmpty ("a.txt") ("x") = some t
        ∧ (pythonPath false ("a.txt") = true →
            extract_python_entities (tsEmpty ("x")) ("x") ("a.txt") = []
              → t.children = [])
        ∧ (pythonPath false ("a.txt") = false →
            simpleChildren (splitlines ("x")) ("a.txt") = []
              → t.children = [])) :=
  ⟨by decide, C8_extraction_total false tsEmpty ("a.txt") ("x") (by decide)⟩

/-- Claim C9: the Containment Graph builder is pure and idempotent —
building twice from the same forest yields the same graph; every node of
the forest is present with its attributes (kind, name, file path, line
span) copied verbatim from a forest node carrying that id; every edge is a
"contains" edge corresponding to a parent→child tree edge; and every tree
edge whose parent id is truthy yields a "contains" edge.  (The builder is a
pure function of the forest, so non-mutation of the input is inherent in
the embedding.) -/
theorem C9_hpg_pure (f : List ASTNode) :
    HPGBuilder.build f = HPGBuilder.build f
    ∧ (∀ n ∈ allNodesList f, ∃ m ∈ allNodesList f, m.id = n.id
        ∧ nodeLookup (HPGBuilder.build f) n.id = some (hpgAttrsOf m))
    ∧ (∀ e ∈ (HPGBuilder.build f).edges,
        e.2.2 = "contains" ∧ (e.1, e.2.1) ∈ treeEdgesList f)
    ∧ (∀ pq ∈ treeEdgesList f, pq.1 ≠ "" →
        (pq.1, pq.2, "contains") ∈ (HPGBuilder.build f).edges) := by
  unfold HPGBuilder.build
  have H := hpg_fold_props f DiGraph.empty
  refine ⟨rfl, ?_, ?_, ?_⟩
  · intro n hn
    have hs := H.2.2.1 n hn
    rcases ho : nodeLookup
        (f.foldl (fun g n => add_ast_node_to_graph n g none) DiGraph.empty)
        n.id with _ | a
    · rw [ho] at hs
      exact absurd hs (by simp)
    · rcases H.2.1 n.id a ho with h2 | h2
      · rw [nodeLookup_empty] at h2
        exact absurd h2 (by simp)
      · rcases h2 with ⟨m, hm, hmid, hma⟩
        exact ⟨m, hm, hmid, by rw [hma]⟩
  · intro e he
    rcases H.2.2.2.1 e he with h | h
    · exact absurd h (List.not_mem_nil _)
    · exact h
  · intro pq hpq hne
    exact H.2.2.2.2.2 pq hpq hne

/-- Witness for C9 on a concrete one-class-one-function forest. -/
theorem C9_witness :
    ∃ m ∈ allNodesList sampleForest, m.id = "k"
      ∧ nodeLookup (HPGBuilder.build sampleForest) ("k")
          = some (hpgAttrsOf m) :=
  (C9_hpg_pure sampleForest).2.1
    (ASTNode.mk ("k") .function ("k") ("a.py") 2 3 [])
    (List.mem_cons_of_mem _ (List.mem_cons_self _ _))

/-- Claim C10: the CFG and PDG builders are total for every unit with
1-based line numbers and every source string, even when the line range lies
partly or wholly past the end of the source (including the empty source):
out-of-range entry/exit lines yield an empty snippet rather than an
out-of-bounds access, and the PDG scan is clamped to the available lines,
every produced node's line number lying within both the unit's range and
the source. -/
theorem C10_builders_total (u : ASTNode) (content : String)
    (h1 : 1 ≤ u.line_start) (h2 : 1 ≤ u.line_end) :
    (∃ g, CFGBuilder.build u content = some g
      ∧ (((splitlines content).length : Int) < u.line_start →
          nodeLookup g ("entry_" ++ u.id)
            = some ⟨"entry_" ++ u.id, "entry", u.id, u.line_start, ""⟩)
      ∧ (((splitlines content).length : Int) < u.line_end →
          nodeLookup g ("exit_" ++ u.id)
            = some ⟨"exit_" ++ u.id, "exit", u.id, u.line_end, ""⟩))
    ∧ (∃ g, PDGBuilder.build u content = some g
      ∧ ∀ nd ∈ g.nodes, u.line_start ≤ nd.2.line_number
          ∧ nd.2.line_number ≤ ((splitlines content).length : Int)) := by
  constructor
  · refine ⟨_, cfg_build_eq u content h1 h2, ?_, ?_⟩
    · intro hlt
      have hempty : lineAt (splitlines content) u.line_start = "" := by
        unfold lineAt
        rw [if_neg (fun hr => absurd hr.2 (by omega))]
      unfold nodeLookup
      rw [List.find?_cons_of_pos _ (by simp)]
      rw [show (some (("entry_" ++ u.id,
        (⟨"entry_" ++ u.id, "entry", u.id, u.line_start,
          lineAt (splitlines content) u.line_start⟩ : ControlFlowNode)))).map
            Prod.snd
          = some (⟨"entry_" ++ u.id, "entry", u.id, u.line_start,
              lineAt (splitlines content) u.line_start⟩ : ControlFlowNode)
        from rfl]
      rw [hempty]
    · intro hlt
      have hempty : lineAt (splitlines content) u.line_end = "" := by
        unfold lineAt
        rw [if_neg (fun hr => absurd hr.2 (by omega))]
      unfold nodeLookup
      rw [List.find?_cons_of_neg _ (by
        rw [show (("entry_" ++ u.id) == ("exit_" ++ u.id)) = false from
          beq_eq_false_iff_ne.mpr (entryId_ne_exitId u.id)]
        exact Bool.false_ne_true)]
      rw [List.find?_cons_of_pos _ (by simp)]
      rw [show (some (("exit_" ++ u.id,
        (⟨"exit_" ++ u.id, "exit", u.id, u.line_end,
          lineAt (splitlines content) u.line_end⟩ : ControlFlowNode)))).map
            Prod.snd
          = some (⟨"exit_" ++ u.id, "exit", u.id, u.line_end,
              lineAt (splitlines content) u.line_end⟩ : ControlFlowNode)
        from rfl]
      rw [hempty]
  · refine ⟨_, pdg_build_eq u content h1, ?_⟩
    intro nd hnd
    rcases List.mem_map.mp hnd with ⟨pr, hpr, heq⟩
    have hmemcand : pr.2 ∈ pdgCandidates (splitlines content)
        u.line_start u.line_end := by
      exact List.getElem?_mem (List.mem_enum_iff_getElem?.mp hpr)
    rcases pr with ⟨i, v, m⟩
    have hb := pdgCandidatesAux_mem_bounds (splitlines content) 1
      u.line_start u.line_end v m hmemcand
    have hline : nd.2.line_number = m := by
      rw [← heq]
    rw [hline]
    exact ⟨hb.1, by omega⟩

/-- Witness for C10 at a unit lying wholly past the end of an empty
source. -/
theorem C10_witness :
    (1 : Int) ≤ pastEndUnit.line_start ∧ (1 : Int) ≤ pastEndUnit.line_end
    ∧ ((∃ g, CFGBuilder.build pastEndUnit "" = some g
        ∧ (((splitlines "").length : Int) < pastEndUnit.line_start →
            nodeLookup g ("entry_" ++ pastEndUnit.id)
              = some ⟨"entry_" ++ pastEndUnit.id, "entry", pastEndUnit.id,
                  pastEndUnit.line_start, ""⟩)
        ∧ (((splitlines "").length : Int) < pastEndUnit.line_end →
            nodeLookup g ("exit_" ++ pastEndUnit.id)
              = some ⟨"exit_" ++ pastEndUnit.id, "exit", pastEndUnit.id,
                  pastEndUnit.line_end, ""⟩))
      ∧ (∃ g, PDGBuilder.build pastEndUnit "" = some g
        ∧ ∀ nd ∈ g.nodes, pastEndUnit.line_start ≤ nd.2.line_number
            ∧ nd.2.line_number ≤ (((splitlines "").length : Int)))) :=
  ⟨by decide, by decide,
    C10_builders_total pastEndUnit "" (by decide) (by decide)⟩

end CodeIQ
